import Mathlib

/-!
# Per-page translation statistics: recorder and hotness-ranked export

A shallow embedding of `inc/page_stat.h`, `src/page_stat.cc` and of the
per-page part of `champsim::json_printer::print` (`src/json_printer.cc`).

* `uint32_t` / `uint64_t` values are natural numbers; every operation that can
  overflow in the source (`++counter`, `itlb_acc + dtlb_acc`) is reduced
  modulo `2 ^ 64` explicitly.
* The process-wide `std::map<key, counters> g_stat` is passed explicitly.  A
  `std::map` is embedded as the list of its entries in iteration order, which
  is strictly ascending for `key::operator<`.
* `std::sort` is library code: the export takes the sorting routine as an
  argument, and theorems about the export assume what the C++ standard
  promises of `std::sort` (`StdSortContract`).  The routine the program runs
  when built with GNU libstdc++ (`bits/stl_algo.h`, `bits/stl_heap.h`:
  introsort with a final insertion sort) is embedded in the namespace
  `libstdcxx`, on a vector given as a list, with `none` for a run that leaves
  the vector; `gnu_sort` is that routine as an argument of the export.
* `double` quotients are embedded as exact rationals.
-/

set_option autoImplicit false

/-! ## The `std::sort` of GNU libstdc++ -/

namespace libstdcxx

variable {α : Type}

/-- A read `*(v + i)` inside the vector; a read outside it is undefined. -/
def load (v : List α) (i : Nat) : Option α := v[i]?

/-- A write `*(v + i) = x` inside the vector; a write outside it is undefined. -/
def store (v : List α) (i : Nat) (x : α) : Option (List α) :=
  if i < v.length then some (v.set i x) else none

/-- Embedding of `std::iter_swap(v + i, v + j)`. -/
def iter_swap (v : List α) (i j : Nat) : Option (List α) := do
  let x ← load v i
  let y ← load v j
  let v1 ← store v i y
  store v1 j x

/-- The halving loop that counts the binary digits of `n` after the first; the
first argument bounds the number of iterations. -/
def lg_loop : Nat → Nat → Nat
  | 0, _ => 0
  | fuel + 1, n => if n ≥ 2 then lg_loop fuel (n / 2) + 1 else 0

/-- Embedding of `std::__lg(n)` for `n > 0`: the position of the highest set bit
of `n`, which the source computes by counting leading zeros. -/
def lg (n : Nat) : Nat := lg_loop n n

/-- Embedding of `std::__move_median_to_first(result, a, b, c, comp)`. -/
def move_median_to_first (comp : α → α → Bool) (v : List α) (result a b c : Nat) :
    Option (List α) := do
  let va ← load v a
  let vb ← load v b
  let vc ← load v c
  if comp va vb then
    if comp vb vc then iter_swap v result b
    else if comp va vc then iter_swap v result c
    else iter_swap v result a
  else if comp va vc then iter_swap v result a
  else if comp vb vc then iter_swap v result c
  else iter_swap v result b

/-- The loop `while (comp(first, pivot)) ++first;` of `__unguarded_partition`;
the first argument bounds the number of iterations. -/
def scan_up (comp : α → α → Bool) (v : List α) (pivot : Nat) : Nat → Nat → Option Nat
  | 0, _ => none
  | fuel + 1, first => do
    let x ← load v first
    let p ← load v pivot
    if comp x p then scan_up comp v pivot fuel (first + 1) else pure first

/-- The loop `while (comp(pivot, last)) --last;` of `__unguarded_partition`;
the first argument bounds the number of iterations. -/
def scan_down (comp : α → α → Bool) (v : List α) (pivot : Nat) : Nat → Nat → Option Nat
  | 0, _ => none
  | fuel + 1, last => do
    let p ← load v pivot
    let x ← load v last
    if comp p x then
      if last = 0 then none else scan_down comp v pivot fuel (last - 1)
    else pure last

/-- Embedding of `std::__unguarded_partition(first, last, pivot, comp)`: the
vector after the swaps and the returned cut; the first argument bounds the
number of iterations of the outer loop. -/
def unguarded_partition (comp : α → α → Bool) (pivot : Nat) :
    Nat → List α → Nat → Nat → Option (List α × Nat)
  | 0, _, _, _ => none
  | fuel + 1, v, first, last => do
    let first1 ← scan_up comp v pivot (v.length + 1) first
    if last = 0 then none
    else do
      let last1 ← scan_down comp v pivot (v.length + 1) (last - 1)
      if ¬ (first1 < last1) then pure (v, first1)
      else do
        let v1 ← iter_swap v first1 last1
        unguarded_partition comp pivot fuel v1 (first1 + 1) last1

/-- Embedding of `std::__unguarded_partition_pivot(first, last, comp)`. -/
def unguarded_partition_pivot (comp : α → α → Bool) (v : List α) (first last : Nat) :
    Option (List α × Nat) := do
  let mid := first + (last - first) / 2
  let v1 ← move_median_to_first comp v first (first + 1) mid (last - 1)
  unguarded_partition comp first (v1.length + 1) v1 (first + 1) last

/-- Embedding of `std::__push_heap(first, holeIndex, topIndex, value, comp)`; the
first argument bounds the number of iterations. -/
def push_heap (comp : α → α → Bool) (first topIndex : Nat) (value : α) :
    Nat → List α → Nat → Option (List α)
  | 0, _, _ => none
  | fuel + 1, v, holeIndex =>
    let parent := (holeIndex - 1) / 2
    if holeIndex > topIndex then do
      let p ← load v (first + parent)
      if comp p value then do
        let v1 ← store v (first + holeIndex) p
        push_heap comp first topIndex value fuel v1 parent
      else store v (first + holeIndex) value
    else store v (first + holeIndex) value

/-- The `while (secondChild < (len - 1) / 2)` loop of `__adjust_heap`: the vector
and the values of `holeIndex` and `secondChild` after it; the first argument
bounds the number of iterations. -/
def sift_down (comp : α → α → Bool) (first len : Nat) :
    Nat → List α → Nat → Nat → Option (List α × Nat × Nat)
  | 0, _, _, _ => none
  | fuel + 1, v, holeIndex, secondChild =>
    if secondChild < (len - 1) / 2 then do
      let c := 2 * (secondChild + 1)
      let x ← load v (first + c)
      let y ← load v (first + (c - 1))
      let c1 := if comp x y then c - 1 else c
      let z ← load v (first + c1)
      let v1 ← store v (first + holeIndex) z
      sift_down comp first len fuel v1 c1 c1
    else pure (v, holeIndex, secondChild)

/-- Embedding of `std::__adjust_heap(first, holeIndex, len, value, comp)`.  The
lengths are signed in the source, so `(len - 2) / 2` is `-1` for `len = 0`. -/
def adjust_heap (comp : α → α → Bool) (v : List α) (first holeIndex len : Nat) (value : α) :
    Option (List α) := do
  let topIndex := holeIndex
  let (v1, hole1, secondChild) ← sift_down comp first len (len + 1) v holeIndex holeIndex
  if len % 2 = 0 ∧ 2 ≤ len ∧ secondChild = (len - 2) / 2 then do
    let c := 2 * (secondChild + 1)
    let z ← load v1 (first + (c - 1))
    let v2 ← store v1 (first + hole1) z
    push_heap comp first topIndex value (len + 1) v2 (c - 1)
  else push_heap comp first topIndex value (len + 1) v1 hole1

/-- Embedding of `std::__pop_heap(first, last, result, comp)`. -/
def pop_heap (comp : α → α → Bool) (v : List α) (first last result : Nat) :
    Option (List α) := do
  let value ← load v result
  let top ← load v first
  let v1 ← store v result top
  adjust_heap comp v1 first 0 (last - first) value

/-- The loop of `std::__make_heap`, from `parent` down to zero. -/
def make_heap_loop (comp : α → α → Bool) (first len : Nat) :
    Nat → List α → Option (List α)
  | 0, v => do
    let value ← load v first
    adjust_heap comp v first 0 len value
  | parent + 1, v => do
    let value ← load v (first + (parent + 1))
    let v1 ← adjust_heap comp v first (parent + 1) len value
    make_heap_loop comp first len parent v1

/-- Embedding of `std::__make_heap(first, last, comp)`. -/
def make_heap (comp : α → α → Bool) (v : List α) (first last : Nat) : Option (List α) :=
  if last - first < 2 then pure v
  else make_heap_loop comp first (last - first) ((last - first - 2) / 2) v

/-- The loop of `std::__heap_select` over `[i, last)`; the first argument is
`last - i`. -/
def heap_select_loop (comp : α → α → Bool) (first middle : Nat) :
    Nat → List α → Nat → Option (List α)
  | 0, v, _ => pure v
  | n + 1, v, i => do
    let x ← load v i
    let top ← load v first
    let v1 ← if comp x top then pop_heap comp v first middle i else pure v
    heap_select_loop comp first middle n v1 (i + 1)

/-- Embedding of `std::__heap_select(first, middle, last, comp)`. -/
def heap_select (comp : α → α → Bool) (v : List α) (first middle last : Nat) :
    Option (List α) := do
  let v1 ← make_heap comp v first middle
  heap_select_loop comp first middle (last - middle) v1 middle

/-- The loop of `std::__sort_heap`; the first argument is `last - first`. -/
def sort_heap_loop (comp : α → α → Bool) (first : Nat) : Nat → List α → Option (List α)
  | 0, v => pure v
  | n + 1, v =>
    if n + 1 > 1 then do
      let v1 ← pop_heap comp v first (first + n) (first + n)
      sort_heap_loop comp first n v1
    else pure v

/-- Embedding of `std::__sort_heap(first, last, comp)`. -/
def sort_heap (comp : α → α → Bool) (v : List α) (first last : Nat) : Option (List α) :=
  sort_heap_loop comp first (last - first) v

/-- Embedding of `std::__partial_sort(first, middle, last, comp)`. -/
def partial_sort (comp : α → α → Bool) (v : List α) (first middle last : Nat) :
    Option (List α) := do
  let v1 ← heap_select comp v first middle last
  sort_heap comp v1 first middle

/-- Embedding of `std::__introsort_loop(first, last, depth_limit, comp)`, with
`depth_limit` as first argument; `_S_threshold` is 16. -/
def introsort_loop (comp : α → α → Bool) : Nat → List α → Nat → Nat → Option (List α)
  | 0, v, first, last =>
    if last - first > 16 then partial_sort comp v first last last else pure v
  | depth_limit + 1, v, first, last =>
    if last - first > 16 then do
      let (v1, cut) ← unguarded_partition_pivot comp v first last
      let v2 ← introsort_loop comp depth_limit v1 cut last
      introsort_loop comp depth_limit v2 first cut
    else pure v

/-- The loop of `std::__unguarded_linear_insert(last, comp)` with `next = last - 1`;
the first argument bounds the number of iterations. -/
def linear_insert_loop (comp : α → α → Bool) (val : α) : Nat → List α → Nat → Option (List α)
  | 0, _, _ => none
  | fuel + 1, v, last =>
    if last = 0 then none
    else do
      let x ← load v (last - 1)
      if comp val x then do
        let v1 ← store v last x
        linear_insert_loop comp val fuel v1 (last - 1)
      else store v last val

/-- Embedding of `std::__unguarded_linear_insert(last, comp)`. -/
def unguarded_linear_insert (comp : α → α → Bool) (v : List α) (last : Nat) :
    Option (List α) := do
  let val ← load v last
  linear_insert_loop comp val (v.length + 1) v last

/-- The branch `val = *i; std::move_backward(first, i, i + 1); *first = val;` of
`__insertion_sort`. -/
def move_to_first (v : List α) (first i : Nat) : Option (List α) := do
  let val ← load v i
  pure (v.take first ++ val :: (v.drop first).take (i - first) ++ v.drop (i + 1))

/-- The loop of `std::__insertion_sort` over `[i, last)`; the first argument is
`last - i`. -/
def insertion_sort_loop (comp : α → α → Bool) (first : Nat) :
    Nat → List α → Nat → Option (List α)
  | 0, v, _ => pure v
  | n + 1, v, i => do
    let x ← load v i
    let f ← load v first
    let v1 ← if comp x f then move_to_first v first i else unguarded_linear_insert comp v i
    insertion_sort_loop comp first n v1 (i + 1)

/-- Embedding of `std::__insertion_sort(first, last, comp)`. -/
def insertion_sort (comp : α → α → Bool) (v : List α) (first last : Nat) : Option (List α) :=
  if first = last then pure v
  else insertion_sort_loop comp first (last - (first + 1)) v (first + 1)

/-- The loop of `std::__unguarded_insertion_sort` over `[i, last)`; the first
argument is `last - i`. -/
def unguarded_insertion_sort_loop (comp : α → α → Bool) : Nat → List α → Nat → Option (List α)
  | 0, v, _ => pure v
  | n + 1, v, i => do
    let v1 ← unguarded_linear_insert comp v i
    unguarded_insertion_sort_loop comp n v1 (i + 1)

/-- Embedding of `std::__unguarded_insertion_sort(first, last, comp)`. -/
def unguarded_insertion_sort (comp : α → α → Bool) (v : List α) (first last : Nat) :
    Option (List α) :=
  unguarded_insertion_sort_loop comp (last - first) v first

/-- Embedding of `std::__final_insertion_sort(first, last, comp)`. -/
def final_insertion_sort (comp : α → α → Bool) (v : List α) (first last : Nat) :
    Option (List α) :=
  if last - first > 16 then do
    let v1 ← insertion_sort comp v first (first + 16)
    unguarded_insertion_sort comp v1 (first + 16) last
  else insertion_sort comp v first last

/-- Embedding of `std::__sort(first, last, comp)` on a whole vector: `none` where
the source reads or writes outside the vector. -/
def sort (comp : α → α → Bool) (v : List α) : Option (List α) :=
  if v.length ≠ 0 then do
    let v1 ← introsort_loop comp (lg v.length * 2) v 0 v.length
    final_insertion_sort comp v1 0 v.length
  else pure v

end libstdcxx

namespace page_stats

/-- The map key `(core, vpn, is_instr)` of `struct key`. -/
structure key where
  core : Nat
  vpn : Nat
  is_instr : Bool
deriving DecidableEq, Repr

/-- Embedding of `key::operator<`; the final comparison of two `bool`s is made
after integral promotion, as in C++. -/
def key.lt (a rhs : key) : Bool :=
  if a.core ≠ rhs.core then decide (a.core < rhs.core)
  else if a.vpn ≠ rhs.vpn then decide (a.vpn < rhs.vpn)
  else decide (a.is_instr.toNat < rhs.is_instr.toNat)

/-- The six accumulators of `struct counters`. -/
structure counters where
  itlb_acc : Nat
  itlb_hit : Nat
  dtlb_acc : Nat
  dtlb_hit : Nat
  stlb_acc : Nat
  stlb_hit : Nat
deriving DecidableEq, Repr

/-- Value-initialised `counters{}`: all six members are zero. -/
def counters.zero : counters := ⟨0, 0, 0, 0, 0, 0⟩

/-- Pre-increment `++x` of a `uint64_t`. -/
def incr64 (x : Nat) : Nat := (x + 1) % 2 ^ 64

/-- The body of `tlb_access` after the entry `c = g_stat[k]` has been obtained:
the `if / else if / else if` chain on the level string, with no final `else`. -/
def bump (which : String) (is_hit : Bool) (c : counters) : counters :=
  if which = "ITLB" then
    let c1 := { c with itlb_acc := incr64 c.itlb_acc }
    if is_hit then { c1 with itlb_hit := incr64 c1.itlb_hit } else c1
  else if which = "DTLB" then
    let c1 := { c with dtlb_acc := incr64 c.dtlb_acc }
    if is_hit then { c1 with dtlb_hit := incr64 c1.dtlb_hit } else c1
  else if which = "STLB" then
    let c1 := { c with stlb_acc := incr64 c.stlb_acc }
    if is_hit then { c1 with stlb_hit := incr64 c1.stlb_hit } else c1
  else c

/-- The reference `auto& c = g_stat[k]` followed by an update `f` of `c`, on the
entry list of the map: `std::map::operator[]` finds the entry whose key is
equivalent to `k` under `operator<`, or inserts a value-initialised one at the
position that keeps the entries ascending. -/
def subscript_update (k : key) (f : counters → counters) :
    List (key × counters) → List (key × counters)
  | [] => [(k, f counters.zero)]
  | (k1, c1) :: rest =>
    if key.lt k k1 then (k, f counters.zero) :: (k1, c1) :: rest
    else if key.lt k1 k then (k1, c1) :: subscript_update k f rest
    else (k1, f c1) :: rest

/-- A `std::map<key, counters>`, given by its entries in iteration order. -/
abbrev Table := List (key × counters)

/-- The entries of a `std::map<key, counters>` are strictly ascending for
`key::operator<`: the representation invariant of a `Table`. -/
def Ascending (l : Table) : Prop :=
  l.Pairwise (fun a b => key.lt a.1 b.1 = true)

/-- The initial value of the static `g_stat`: an empty map. -/
def g_stat : Table := []

/-- Embedding of `page_stats::tlb_access`, with `g_stat` passed explicitly.  The
entry is obtained with `g_stat[k]` before the level string is inspected. -/
def tlb_access (which : String) (core vpn : Nat) (is_hit is_instr : Bool) (g : Table) : Table :=
  subscript_update ⟨core, vpn, is_instr⟩ (bump which is_hit) g

/-- Embedding of `page_stats::snapshot`: the map itself, iterated in key order. -/
def snapshot (g : Table) : List (key × counters) := g

/-- Embedding of `page_stats::clear`: `g_stat.clear()`. -/
def clear (_g : Table) : Table := []

/-- The arguments of one call of `tlb_access`. -/
structure access where
  which : String
  core : Nat
  vpn : Nat
  is_hit : Bool
  is_instr : Bool
deriving DecidableEq, Repr

/-- The key an access is recorded under. -/
def access.key (a : access) : key := ⟨a.core, a.vpn, a.is_instr⟩

/-- One call of `tlb_access` with the arguments `a`. -/
def access.apply (a : access) (g : Table) : Table :=
  tlb_access a.which a.core a.vpn a.is_hit a.is_instr g

/-- A sequence of `tlb_access` calls, made in list order. -/
def record_all (calls : List access) (g : Table) : Table :=
  calls.foldl (fun t a => a.apply t) g

/-- A call made by a client of the recorder: `tlb_access` or `clear`. -/
inductive command where
  | record (a : access)
  | clear
deriving DecidableEq, Repr

/-- Execution of one client call. -/
def command.apply : command → Table → Table
  | .record a, g => a.apply g
  | .clear, g => page_stats.clear g

/-- Execution of a sequence of client calls, in list order. -/
def run (cmds : List command) (g : Table) : Table :=
  cmds.foldl (fun t c => c.apply t) g

/-- The number of `tlb_access` calls in a sequence of client calls. -/
def record_count (cmds : List command) : Nat :=
  cmds.countP (fun c => c ≠ command.clear)

/-- The counters stored under `k` in a snapshot, if the key is present. -/
def find (k : key) (snap : List (key × counters)) : Option counters :=
  (snap.find? (fun kv => kv.1 = k)).map Prod.snd

/-- The counters of `k` in a snapshot, read as all zero when `k` is absent. -/
def counters_at (k : key) (snap : List (key × counters)) : counters :=
  (find k snap).getD counters.zero

/-- The access counter of a level (`ITLB`, `DTLB` or `STLB`). -/
def counters.acc (c : counters) (level : String) : Nat :=
  if level = "ITLB" then c.itlb_acc
  else if level = "DTLB" then c.dtlb_acc
  else c.stlb_acc

/-- The hit counter of a level (`ITLB`, `DTLB` or `STLB`). -/
def counters.hit (c : counters) (level : String) : Nat :=
  if level = "ITLB" then c.itlb_hit
  else if level = "DTLB" then c.dtlb_hit
  else c.stlb_hit

/-- The three level strings `tlb_access` recognises. -/
def Level (L : String) : Prop := L = "ITLB" ∨ L = "DTLB" ∨ L = "STLB"

/-- The number of calls in a sequence made for level `L` and key `K`. -/
def access_count (L : String) (K : key) (calls : List access) : Nat :=
  calls.countP (fun a => a.which = L ∧ a.key = K)

/-- The number of calls in a sequence made for level `L` and key `K` that hit. -/
def hit_count (L : String) (K : key) (calls : List access) : Nat :=
  calls.countP (fun a => a.which = L ∧ a.key = K ∧ a.is_hit = true)

/-- Every hit counter is at most its access counter, and every access counter is
at most `m`. -/
def counters.WithinCalls (m : Nat) (c : counters) : Prop :=
  (c.itlb_hit ≤ c.itlb_acc ∧ c.itlb_acc ≤ m) ∧
  (c.dtlb_hit ≤ c.dtlb_acc ∧ c.dtlb_acc ≤ m) ∧
  (c.stlb_hit ≤ c.stlb_acc ∧ c.stlb_acc ≤ m)

/-- A sample run: four `ITLB` accesses of page 100 on core 0 (three hits), one
call with a level string that is not recognised, and `STLB` misses of page 5. -/
def sample_calls : List access :=
  [⟨"ITLB", 0, 100, true, true⟩, ⟨"STLB", 0, 5, false, false⟩, ⟨"ITLB", 0, 100, true, true⟩,
   ⟨"UNKNOWN", 1, 7, true, false⟩, ⟨"ITLB", 0, 100, false, true⟩, ⟨"STLB", 0, 5, false, true⟩,
   ⟨"ITLB", 0, 100, true, true⟩]

/-- One `STLB` miss of each of the pages 0 to 8 of core 0 on the data side and
one on the instruction side: eighteen entries, the two of a page with equal
counters. -/
def tied_pages_calls : List access :=
  (List.range 9).foldr
    (fun vpn calls => ⟨"STLB", 0, vpn, false, false⟩ :: ⟨"STLB", 0, vpn, false, true⟩ :: calls) []

/-- A sample session: one recorded access, a `clear`, then `sample_calls`. -/
def sample_commands : List command :=
  command.record ⟨"DTLB", 3, 9, true, false⟩ :: command.clear
    :: sample_calls.map command.record

/-- Two `STLB` misses of page 5 on core 0, one on the data side and one on the
instruction side: the two entries get equal counters. -/
def tie_calls : List access :=
  [⟨"STLB", 0, 5, false, false⟩, ⟨"STLB", 0, 5, false, true⟩]

/-- The lexicographic order on `(core, vpn, is_instr)` with `false` before
`true`, written after the words of the specification, for comparison with
`key.lt`. -/
def key.lex_lt (a b : key) : Prop :=
  a.core < b.core ∨
    (a.core = b.core ∧
      (a.vpn < b.vpn ∨ (a.vpn = b.vpn ∧ a.is_instr = false ∧ b.is_instr = true)))

/-- The number of calls in a sequence made for level `L` and key `K` that
missed. -/
def miss_count (L : String) (K : key) (calls : List access) : Nat :=
  calls.countP (fun a => a.which = L ∧ a.key = K ∧ a.is_hit = false)

/-- The calls of `tlb_access` made since the last `clear` of a sequence of
client calls, oldest first, after the calls `pending` made before the sequence. -/
def calls_since_clear (pending : List access) (cmds : List command) : List access :=
  cmds.foldl (fun acc c =>
    match c with
    | command.record a => acc ++ [a]
    | command.clear => []) pending

/-- Scenario A: three `ITLB` hits and one `ITLB` miss of page 100 on core 0, on
the instruction side. -/
def scenario_A : List access :=
  [⟨"ITLB", 0, 100, true, true⟩, ⟨"ITLB", 0, 100, true, true⟩, ⟨"ITLB", 0, 100, true, true⟩,
   ⟨"ITLB", 0, 100, false, true⟩]

/-- Two `STLB` misses and one `ITLB` access of the same page. -/
def walk_calls : List access :=
  [⟨"STLB", 0, 5, false, true⟩, ⟨"STLB", 0, 5, false, true⟩, ⟨"ITLB", 0, 5, false, true⟩]

end page_stats

namespace champsim.json_printer

open page_stats

/-- The local `struct Row` of `json_printer::print`. -/
structure Row where
  core : Nat
  vpn : Nat
  is_instr : Bool
  itlb_acc : Nat
  itlb_hit : Nat
  dtlb_acc : Nat
  dtlb_hit : Nat
  stlb_acc : Nat
  stlb_hit : Nat
deriving DecidableEq, Repr

/-- The lambda `div` of `json_printer::print`, with the `double` quotient taken
as an exact rational. -/
def div (num den : Nat) : ℚ :=
  if den ≠ 0 then (num : ℚ) / (den : ℚ) else 0

/-- The `Row{...}` built from one entry `kv` of the snapshot. -/
def row_of (kv : key × counters) : Row :=
  Row.mk kv.1.core kv.1.vpn kv.1.is_instr kv.2.itlb_acc kv.2.itlb_hit
    kv.2.dtlb_acc kv.2.dtlb_hit kv.2.stlb_acc kv.2.stlb_hit

/-- The loop that pulls the snapshot into the vector `rows`. -/
def rows_of (snap : List (key × counters)) : List Row :=
  snap.map row_of

/-- The `uint64_t` sum `itlb_acc + dtlb_acc`, which wraps modulo `2 ^ 64`. -/
def tlb_acc_total (r : Row) : Nat := (r.itlb_acc + r.dtlb_acc) % 2 ^ 64

/-- The comparator lambda handed to `std::sort`: whether `a` goes before `b`. -/
def hotter (a b : Row) : Bool :=
  let a_tlb := tlb_acc_total a
  let b_tlb := tlb_acc_total b
  if a_tlb ≠ b_tlb then decide (a_tlb > b_tlb)
  else if a.stlb_acc ≠ b.stlb_acc then decide (a.stlb_acc > b.stlb_acc)
  else if a.core ≠ b.core then decide (a.core < b.core)
  else decide (a.vpn < b.vpn)

/-- The local `stlb_ptw` of the output loop. -/
def stlb_ptw (r : Row) : Nat :=
  if r.stlb_acc ≥ r.stlb_hit then r.stlb_acc - r.stlb_hit else 0

/-- The local `ptw_rate` expression `div(stlb_ptw, tlb_acc_total)`. -/
def ptw_rate (r : Row) : ℚ := div (stlb_ptw r) (tlb_acc_total r)

/-- One element of the `per_page_translation` array. -/
structure page_json where
  core : Nat
  vpn : Nat
  is_instr : Bool
  itlb_hit_rate : ℚ
  dtlb_hit_rate : ℚ
  stlb_hit_rate : ℚ
  ptw_rate : ℚ
  raw_itlb_acc : Nat
  raw_itlb_hit : Nat
  raw_dtlb_acc : Nat
  raw_dtlb_hit : Nat
  raw_stlb_acc : Nat
  raw_stlb_hit : Nat
  raw_stlb_ptw : Nat
deriving DecidableEq

/-- The body of the output loop: the JSON object built for one row. -/
def emit (r : Row) : page_json :=
  { core := r.core
    vpn := r.vpn
    is_instr := r.is_instr
    itlb_hit_rate := div r.itlb_hit r.itlb_acc
    dtlb_hit_rate := div r.dtlb_hit r.dtlb_acc
    stlb_hit_rate := div r.stlb_hit r.stlb_acc
    ptw_rate := ptw_rate r
    raw_itlb_acc := r.itlb_acc
    raw_itlb_hit := r.itlb_hit
    raw_dtlb_acc := r.dtlb_acc
    raw_dtlb_hit := r.dtlb_hit
    raw_stlb_acc := r.stlb_acc
    raw_stlb_hit := r.stlb_hit
    raw_stlb_ptw := stlb_ptw r }

/-- The key fields written in an exported row. -/
def page_json.key (p : page_json) : page_stats.key := ⟨p.core, p.vpn, p.is_instr⟩

/-- The table entry written in an exported row: its key fields and its six raw
counters. -/
def page_json.entry (p : page_json) : page_stats.key × counters :=
  (p.key, ⟨p.raw_itlb_acc, p.raw_itlb_hit, p.raw_dtlb_acc, p.raw_dtlb_hit,
    p.raw_stlb_acc, p.raw_stlb_hit⟩)

/-- A sorting routine, as `std::sort` is called: a comparator and a sequence. -/
abbrev sorter := (Row → Row → Bool) → List Row → List Row

/-- The vector `rows` after `std::sort(rows.begin(), rows.end(), hotter)`. -/
def sorted_rows (sort : sorter) (g : Table) : List Row :=
  sort hotter (rows_of (snapshot g))

/-- The `per_page_translation` array written by `json_printer::print`: the rows
of the snapshot, sorted by `sort` with the comparator `hotter`, then emitted in
that order.  The `phases` array is passed through and is not part of the model. -/
def print (sort : sorter) (g : Table) : List page_json :=
  (sorted_rows sort g).map emit

/-- The hotness order between an earlier exported row `a` and a later one `b`,
on the raw counters: total first-level accesses descending, then `stlb_acc`
descending, then `core` ascending, then `vpn` ascending. -/
def HotnessOrdered (a b : page_json) : Prop :=
  a.raw_itlb_acc + a.raw_dtlb_acc ≥ b.raw_itlb_acc + b.raw_dtlb_acc ∧
  (a.raw_itlb_acc + a.raw_dtlb_acc = b.raw_itlb_acc + b.raw_dtlb_acc →
    a.raw_stlb_acc ≥ b.raw_stlb_acc ∧
    (a.raw_stlb_acc = b.raw_stlb_acc →
      a.core ≤ b.core ∧ (a.core = b.core → a.vpn ≤ b.vpn)))

/-- A table with the two rows of scenario B: both have `itlb_acc + dtlb_acc = 10`,
the row of page 2 has `stlb_acc = 5` and the row of page 1 has `stlb_acc = 3`. -/
def scenario_B : Table :=
  [(⟨0, 1, false⟩, ⟨4, 2, 6, 1, 3, 0⟩), (⟨0, 2, false⟩, ⟨10, 7, 0, 0, 5, 4⟩)]

/-- The requirement of the C++ standard on a comparator given to `std::sort`:
a strict weak ordering. -/
def StrictWeakOrdering (comp : Row → Row → Bool) : Prop :=
  (∀ a, comp a a = false) ∧
  (∀ a b c, comp a b = true → comp b c = true → comp a c = true) ∧
  (∀ a b c, comp a b = false → comp b a = false → comp b c = false → comp c b = false →
    comp a c = false ∧ comp c a = false)

/-- The guarantee of the C++ standard for `std::sort`: for a strict weak
ordering the result is a rearrangement of the input that is sorted with respect
to the comparator, that is, `comp(later, earlier)` is false for any two
positions.  Nothing is promised about the order of equivalent elements. -/
def StdSortContract (sort : sorter) : Prop :=
  ∀ comp, StrictWeakOrdering comp → ∀ l,
    (sort comp l).Perm l ∧ (sort comp l).Pairwise (fun a b => comp b a = false)

/-- A sorting routine is stable when, for every strict weak ordering, two
equivalent elements leave it in the relative order in which they entered it. -/
def Stable (sort : sorter) : Prop :=
  ∀ comp, StrictWeakOrdering comp → ∀ l a b, comp a b = false → comp b a = false →
    List.Sublist [a, b] l → List.Sublist [a, b] (sort comp l)

/-- Insertion of `x` in front of the first element that does not go before it. -/
def insert_before (comp : Row → Row → Bool) (x : Row) : List Row → List Row
  | [] => [x]
  | y :: ys => if comp y x then y :: insert_before comp x ys else x :: y :: ys

/-- A sorting routine that keeps equivalent elements in input order. -/
def insertion_sort : sorter
  | _, [] => []
  | comp, x :: xs => insert_before comp x (insertion_sort comp xs)

/-- The call `std::sort(rows.begin(), rows.end(), comp)` as GNU libstdc++ runs it
(`libstdcxx.sort`).  A run that would read or write outside the vector, which is
undefined in the source, leaves the vector as it is. -/
def gnu_sort : sorter :=
  fun comp l => (libstdcxx.sort comp l).getD l

end champsim.json_printer

/-! ## Facts about `key::operator<` -/

namespace page_stats

theorem key.lt_irrefl (a : key) : key.lt a a = false := by
  simp [key.lt]

theorem key.lt_trans {a b c : key} (hab : key.lt a b = true) (hbc : key.lt b c = true) :
    key.lt a c = true := by
  obtain ⟨ac, av, ai⟩ := a
  obtain ⟨bc, bv, bi⟩ := b
  obtain ⟨cc, cv, ci⟩ := c
  simp only [key.lt] at hab hbc ⊢
  cases ai <;> cases bi <;> cases ci <;> simp only [Bool.toNat] at hab hbc ⊢ <;>
    split_ifs at hab hbc ⊢ <;> simp_all <;> omega

theorem key.lt_asymm {a b : key} (hab : key.lt a b = true) : key.lt b a = false := by
  cases h : key.lt b a
  · rfl
  · have := key.lt_trans hab h
    rw [key.lt_irrefl] at this
    exact this.symm

theorem key.eq_of_not_lt {a b : key} (hab : key.lt a b = false) (hba : key.lt b a = false) :
    a = b := by
  obtain ⟨ac, av, ai⟩ := a
  obtain ⟨bc, bv, bi⟩ := b
  simp only [key.lt] at hab hba
  cases ai <;> cases bi <;> simp only [Bool.toNat] at hab hba <;>
    split_ifs at hab hba <;> simp_all <;> omega

theorem key.ne_of_lt {a b : key} (hab : key.lt a b = true) : a ≠ b := by
  intro h
  subst h
  rw [key.lt_irrefl] at hab
  exact Bool.false_ne_true hab

end page_stats

/-! ## The map subscript on ascending entry lists -/

namespace page_stats

theorem find_nil (K : key) : find K [] = none := rfl

theorem find_cons (K : key) (kv : key × counters) (l : List (key × counters)) :
    find K (kv :: l) = if kv.1 = K then some kv.2 else find K l := by
  unfold find
  by_cases h : kv.1 = K
  · simp [List.find?, h]
  · simp [List.find?, h]

theorem find_eq_none_of_forall_ne {K : key} {l : List (key × counters)}
    (h : ∀ kv ∈ l, kv.1 ≠ K) : find K l = none := by
  induction l with
  | nil => rfl
  | cons kv l ih =>
    rw [find_cons, if_neg (h kv (List.mem_cons_self _ _))]
    exact ih (fun x hx => h x (List.mem_cons_of_mem _ hx))

theorem find_eq_none_of_lt_head {K k1 : key} {c1 : counters} {rest : List (key × counters)}
    (hasc : Ascending ((k1, c1) :: rest)) (hlt : key.lt K k1 = true) :
    find K ((k1, c1) :: rest) = none := by
  apply find_eq_none_of_forall_ne
  intro kv hkv
  rcases List.mem_cons.1 hkv with h | h
  · subst h
    exact (key.ne_of_lt hlt).symm
  · have h1 : key.lt k1 kv.1 = true := (List.pairwise_cons.1 hasc).1 kv h
    exact (key.ne_of_lt (key.lt_trans hlt h1)).symm

theorem mem_of_find_eq_some {K : key} {c : counters} {l : List (key × counters)}
    (h : find K l = some c) : (K, c) ∈ l := by
  induction l with
  | nil => simp [find_nil] at h
  | cons kv l ih =>
    rw [find_cons] at h
    by_cases hk : kv.1 = K
    · rw [if_pos hk] at h
      obtain ⟨k, v⟩ := kv
      simp only [Option.some.injEq] at h hk
      subst hk h
      exact List.mem_cons_self _ _
    · rw [if_neg hk] at h
      exact List.mem_cons_of_mem _ (ih h)

theorem find_eq_some_of_mem {K : key} {c : counters} {l : List (key × counters)}
    (hasc : Ascending l) (h : (K, c) ∈ l) : find K l = some c := by
  induction l with
  | nil => simp at h
  | cons kv l ih =>
    rw [find_cons]
    rcases List.mem_cons.1 h with h1 | h1
    · subst h1
      simp
    · have hlt : key.lt kv.1 K = true := (List.pairwise_cons.1 hasc).1 (K, c) h1
      rw [if_neg (key.ne_of_lt hlt)]
      exact ih (List.pairwise_cons.1 hasc).2 h1

/-- What `g_stat[k]` followed by an update leaves under every key. -/
theorem find_subscript_update (k K : key) (f : counters → counters) {l : Table}
    (hasc : Ascending l) :
    find K (subscript_update k f l)
      = if K = k then some (f (counters_at k l)) else find K l := by
  induction l with
  | nil =>
    simp only [subscript_update, find_cons, find_nil, counters_at, Option.getD_none]
    by_cases h : k = K
    · subst h; simp
    · rw [if_neg h, if_neg (fun h1 => h h1.symm)]
  | cons kv rest ih =>
    obtain ⟨k1, c1⟩ := kv
    have hrest : Ascending rest := (List.pairwise_cons.1 hasc).2
    unfold subscript_update
    by_cases h1 : key.lt k k1 = true
    · rw [if_pos h1, find_cons]
      have hnone : find k ((k1, c1) :: rest) = none := find_eq_none_of_lt_head hasc h1
      by_cases h : k = K
      · subst h
        simp [counters_at, hnone]
      · rw [if_neg h, if_neg (fun h2 => h h2.symm)]
    · rw [if_neg h1]
      by_cases h2 : key.lt k1 k = true
      · rw [if_pos h2, find_cons, ih hrest]
        have hne : k1 ≠ k := key.ne_of_lt h2
        by_cases h : K = k
        · subst h
          simp only [if_true]
          rw [if_neg hne]
          simp [counters_at, find_cons, hne]
        · rw [if_neg h, if_neg h, find_cons]
      · rw [if_neg h2]
        have hk : k = k1 := key.eq_of_not_lt (by simpa using h1) (by simpa using h2)
        subst hk
        rw [find_cons, find_cons]
        by_cases h : k = K
        · subst h
          simp [counters_at, find_cons]
        · simp only [h, if_false]
          rw [if_neg (fun h3 => h h3.symm)]

theorem key_mem_subscript_update {k : key} {f : counters → counters} {l : Table}
    {kv : key × counters} (h : kv ∈ subscript_update k f l) :
    kv.1 = k ∨ ∃ c, (kv.1, c) ∈ l := by
  induction l with
  | nil =>
    simp only [subscript_update, List.mem_singleton] at h
    left
    rw [h]
  | cons e rest ih =>
    obtain ⟨k1, c1⟩ := e
    unfold subscript_update at h
    split_ifs at h with h1 h2
    · rcases List.mem_cons.1 h with h | h
      · left; rw [h]
      · right; exact ⟨kv.2, h⟩
    · rcases List.mem_cons.1 h with h | h
      · right; exact ⟨c1, by rw [h]; exact List.mem_cons_self _ _⟩
      · rcases ih h with h3 | ⟨c, h3⟩
        · left; exact h3
        · right; exact ⟨c, List.mem_cons_of_mem _ h3⟩
    · rcases List.mem_cons.1 h with h | h
      · right; exact ⟨c1, by rw [h]; exact List.mem_cons_self _ _⟩
      · right; exact ⟨kv.2, List.mem_cons_of_mem _ h⟩

/-- The map subscript keeps the entries strictly ascending. -/
theorem ascending_subscript_update (k : key) (f : counters → counters) {l : Table}
    (hasc : Ascending l) : Ascending (subscript_update k f l) := by
  induction l with
  | nil => simp [subscript_update, Ascending]
  | cons e rest ih =>
    obtain ⟨k1, c1⟩ := e
    have hhead := (List.pairwise_cons.1 hasc).1
    have hrest : Ascending rest := (List.pairwise_cons.1 hasc).2
    unfold subscript_update
    split_ifs with h1 h2
    · refine List.pairwise_cons.2 ⟨?_, hasc⟩
      intro kv hkv
      rcases List.mem_cons.1 hkv with h | h
      · rw [h]; exact h1
      · exact key.lt_trans h1 (hhead kv h)
    · refine List.pairwise_cons.2 ⟨?_, ih hrest⟩
      intro kv hkv
      rcases key_mem_subscript_update hkv with h | ⟨c, h⟩
      · rw [h]; exact h2
      · exact hhead (kv.1, c) h
    · exact List.pairwise_cons.2 ⟨hhead, hrest⟩

theorem ascending_tlb_access (which : String) (core vpn : Nat) (is_hit is_instr : Bool)
    {g : Table} (hasc : Ascending g) :
    Ascending (tlb_access which core vpn is_hit is_instr g) :=
  ascending_subscript_update _ _ hasc

theorem ascending_record_all (calls : List access) {g : Table} (hasc : Ascending g) :
    Ascending (record_all calls g) := by
  induction calls generalizing g with
  | nil => exact hasc
  | cons a calls ih =>
    exact ih (ascending_tlb_access a.which a.core a.vpn a.is_hit a.is_instr hasc)

theorem ascending_g_stat : Ascending g_stat := List.Pairwise.nil

/-- The counters of every key after one call of `tlb_access`. -/
theorem counters_at_apply (a : access) (K : key) {g : Table} (hasc : Ascending g) :
    counters_at K (a.apply g)
      = if K = a.key then bump a.which a.is_hit (counters_at K g) else counters_at K g := by
  unfold counters_at access.apply tlb_access
  rw [find_subscript_update _ _ _ hasc]
  by_cases h : K = a.key
  · subst h
    simp [access.key, counters_at]
  · have h1 : ¬ K = ⟨a.core, a.vpn, a.is_instr⟩ := h
    rw [if_neg h1, if_neg h]

end page_stats

/-! ## Counting recorded accesses -/

namespace page_stats

theorem bump_acc {L : String} (hL : Level L) (which : String) (is_hit : Bool) (c : counters) :
    (bump which is_hit c).acc L = if which = L then incr64 (c.acc L) else c.acc L := by
  rcases hL with h | h | h <;> subst h <;> unfold bump counters.acc <;>
    by_cases h1 : which = "ITLB" <;> by_cases h2 : which = "DTLB" <;>
    by_cases h3 : which = "STLB" <;> cases is_hit <;> simp_all

theorem bump_hit {L : String} (hL : Level L) (which : String) (is_hit : Bool) (c : counters) :
    (bump which is_hit c).hit L
      = if which = L ∧ is_hit = true then incr64 (c.hit L) else c.hit L := by
  rcases hL with h | h | h <;> subst h <;> unfold bump counters.hit <;>
    by_cases h1 : which = "ITLB" <;> by_cases h2 : which = "DTLB" <;>
    by_cases h3 : which = "STLB" <;> cases is_hit <;> simp_all

theorem incr64_of_lt {x : Nat} (h : x + 1 < 2 ^ 64) : incr64 x = x + 1 :=
  Nat.mod_eq_of_lt h

theorem access_count_le_length (L : String) (K : key) (calls : List access) :
    access_count L K calls ≤ calls.length :=
  List.countP_le_length _

theorem hit_count_le_access_count (L : String) (K : key) (calls : List access) :
    hit_count L K calls ≤ access_count L K calls := by
  unfold hit_count access_count
  apply List.countP_mono_left
  intro a _ h
  simp only [decide_eq_true_eq] at h ⊢
  exact ⟨h.1, h.2.1⟩

theorem acc_record_all {L : String} (hL : Level L) (K : key) (calls : List access) {g : Table}
    (hasc : Ascending g)
    (hbound : (counters_at K g).acc L + access_count L K calls < 2 ^ 64) :
    (counters_at K (record_all calls g)).acc L
      = (counters_at K g).acc L + access_count L K calls := by
  induction calls generalizing g with
  | nil => simp [record_all, access_count]
  | cons a calls ih =>
    have hasc1 : Ascending (a.apply g) :=
      ascending_tlb_access a.which a.core a.vpn a.is_hit a.is_instr hasc
    have hstep : record_all (a :: calls) g = record_all calls (a.apply g) := rfl
    have hcount : access_count L K (a :: calls)
        = access_count L K calls + if a.which = L ∧ a.key = K then 1 else 0 := by
      unfold access_count
      rw [List.countP_cons]
      simp
    rw [hcount] at hbound ⊢
    have hone : (counters_at K (a.apply g)).acc L
        = (counters_at K g).acc L + if a.which = L ∧ a.key = K then 1 else 0 := by
      rw [counters_at_apply a K hasc]
      by_cases hk : K = a.key
      · rw [if_pos hk, bump_acc hL]
        by_cases hw : a.which = L
        · have hboth : a.which = L ∧ a.key = K := ⟨hw, hk.symm⟩
          rw [if_pos hw, if_pos hboth]
          rw [if_pos hboth] at hbound
          exact incr64_of_lt (by omega)
        · rw [if_neg hw, if_neg (fun h => hw h.1)]
          rfl
      · rw [if_neg hk, if_neg (fun h => hk h.2.symm)]
        rfl
    rw [hstep, ih hasc1 (by rw [hone]; omega), hone]
    omega

theorem hit_record_all {L : String} (hL : Level L) (K : key) (calls : List access) {g : Table}
    (hasc : Ascending g)
    (hbound : (counters_at K g).hit L + hit_count L K calls < 2 ^ 64) :
    (counters_at K (record_all calls g)).hit L
      = (counters_at K g).hit L + hit_count L K calls := by
  induction calls generalizing g with
  | nil => simp [record_all, hit_count]
  | cons a calls ih =>
    have hasc1 : Ascending (a.apply g) :=
      ascending_tlb_access a.which a.core a.vpn a.is_hit a.is_instr hasc
    have hstep : record_all (a :: calls) g = record_all calls (a.apply g) := rfl
    have hcount : hit_count L K (a :: calls)
        = hit_count L K calls
          + if a.which = L ∧ a.key = K ∧ a.is_hit = true then 1 else 0 := by
      unfold hit_count
      rw [List.countP_cons]
      simp
    rw [hcount] at hbound ⊢
    have hone : (counters_at K (a.apply g)).hit L
        = (counters_at K g).hit L
          + if a.which = L ∧ a.key = K ∧ a.is_hit = true then 1 else 0 := by
      rw [counters_at_apply a K hasc]
      by_cases hk : K = a.key
      · rw [if_pos hk, bump_hit hL]
        by_cases hw : a.which = L ∧ a.is_hit = true
        · have hall : a.which = L ∧ a.key = K ∧ a.is_hit = true := ⟨hw.1, hk.symm, hw.2⟩
          rw [if_pos hw, if_pos hall]
          rw [if_pos hall] at hbound
          exact incr64_of_lt (by omega)
        · rw [if_neg hw, if_neg (fun h => hw ⟨h.1, h.2.2⟩)]
          rfl
      · rw [if_neg hk, if_neg (fun h => hk h.2.1.symm)]
        rfl
    rw [hstep, ih hasc1 (by rw [hone]; omega), hone]
    omega

end page_stats

/-! ## The comparator of the export and sorting routines -/

namespace champsim.json_printer

open page_stats

theorem hotter_irrefl (a : Row) : hotter a a = false := by
  simp [hotter]

theorem hotter_trans {a b c : Row} (hab : hotter a b = true) (hbc : hotter b c = true) :
    hotter a c = true := by
  simp only [hotter] at hab hbc ⊢
  generalize tlb_acc_total a = ta at hab hbc ⊢
  generalize tlb_acc_total b = tb at hab hbc ⊢
  generalize tlb_acc_total c = tc at hab hbc ⊢
  split_ifs at hab hbc ⊢ <;> simp_all <;> omega

/-- Two rows neither of which goes before the other agree on the four ranking
fields. -/
theorem hotter_incomparable_iff (a b : Row) :
    (hotter a b = false ∧ hotter b a = false) ↔
      (tlb_acc_total a = tlb_acc_total b ∧ a.stlb_acc = b.stlb_acc ∧ a.core = b.core
        ∧ a.vpn = b.vpn) := by
  simp only [hotter]
  generalize tlb_acc_total a = ta
  generalize tlb_acc_total b = tb
  constructor
  · rintro ⟨h1, h2⟩
    split_ifs at h1 h2 <;> simp_all <;> omega
  · rintro ⟨h1, h2, h3, h4⟩
    simp [h1, h2, h3, h4]

theorem hotter_strict_weak : StrictWeakOrdering hotter := by
  refine ⟨hotter_irrefl, fun a b c => hotter_trans, ?_⟩
  intro a b c h1 h2 h3 h4
  have hab := (hotter_incomparable_iff a b).1 ⟨h1, h2⟩
  have hbc := (hotter_incomparable_iff b c).1 ⟨h3, h4⟩
  exact (hotter_incomparable_iff a c).2
    ⟨hab.1.trans hbc.1, hab.2.1.trans hbc.2.1, hab.2.2.1.trans hbc.2.2.1,
      hab.2.2.2.trans hbc.2.2.2⟩

theorem StrictWeakOrdering.asymm {comp : Row → Row → Bool} (h : StrictWeakOrdering comp)
    {a b : Row} (hab : comp a b = true) : comp b a = false := by
  cases hba : comp b a
  · rfl
  · have := h.2.1 a b a hab hba
    rw [h.1 a] at this
    exact this.symm

/-- In a strict weak ordering "does not go before" is transitive. -/
theorem StrictWeakOrdering.neg_trans {comp : Row → Row → Bool} (h : StrictWeakOrdering comp)
    {z y x : Row} (hzy : comp z y = false) (hyx : comp y x = false) : comp z x = false := by
  cases hzx : comp z x
  · rfl
  · exfalso
    have hyz : comp y z = false := by
      cases hyz : comp y z
      · rfl
      · have := h.2.1 y z x hyz hzx
        rw [hyx] at this
        exact absurd this Bool.false_ne_true
    have hxy : comp x y = false := by
      cases hxy : comp x y
      · rfl
      · have := h.2.1 z x y hzx hxy
        rw [hzy] at this
        exact absurd this Bool.false_ne_true
    have := (h.2.2 z y x hzy hyz hyx hxy).1
    rw [hzx] at this
    exact absurd this.symm Bool.false_ne_true

theorem perm_insert_before (comp : Row → Row → Bool) (x : Row) (l : List Row) :
    (insert_before comp x l).Perm (x :: l) := by
  induction l with
  | nil => exact List.Perm.refl _
  | cons y ys ih =>
    unfold insert_before
    split_ifs
    · exact (List.Perm.cons y ih).trans (List.Perm.swap x y ys)
    · exact List.Perm.refl _

theorem perm_insertion_sort (comp : Row → Row → Bool) (l : List Row) :
    (insertion_sort comp l).Perm l := by
  induction l with
  | nil => exact List.Perm.refl _
  | cons x xs ih =>
    unfold insertion_sort
    exact (perm_insert_before comp x _).trans (List.Perm.cons x ih)

theorem sorted_insert_before {comp : Row → Row → Bool} (h : StrictWeakOrdering comp) (x : Row)
    {l : List Row} (hl : l.Pairwise (fun a b => comp b a = false)) :
    (insert_before comp x l).Pairwise (fun a b => comp b a = false) := by
  induction l with
  | nil => simp [insert_before]
  | cons y ys ih =>
    have hy := (List.pairwise_cons.1 hl).1
    have hys := (List.pairwise_cons.1 hl).2
    unfold insert_before
    split_ifs with hc
    · refine List.pairwise_cons.2 ⟨?_, ih hys⟩
      intro z hz
      rcases List.mem_cons.1 ((perm_insert_before comp x ys).mem_iff.1 hz) with hzx | hzy
      · rw [hzx]; exact h.asymm hc
      · exact hy z hzy
    · have hyx : comp y x = false := by simpa using hc
      refine List.pairwise_cons.2 ⟨?_, hl⟩
      intro z hz
      rcases List.mem_cons.1 hz with hzy | hzy
      · rw [hzy]; exact hyx
      · exact h.neg_trans (hy z hzy) hyx

theorem sorted_insertion_sort {comp : Row → Row → Bool} (h : StrictWeakOrdering comp)
    (l : List Row) : (insertion_sort comp l).Pairwise (fun a b => comp b a = false) := by
  induction l with
  | nil => exact List.Pairwise.nil
  | cons x xs ih =>
    unfold insertion_sort
    exact sorted_insert_before h x ih

/-- The routine `insertion_sort` does what the standard asks of `std::sort`. -/
theorem insertion_sort_contract : StdSortContract insertion_sort :=
  fun comp h l => ⟨perm_insertion_sort comp l, sorted_insertion_sort h l⟩

end champsim.json_printer

/-! ## The recorder: counts of recorded accesses -/

namespace page_stats

/-- C1: after any sequence of fewer than `2 ^ 64` calls of `tlb_access` on the
empty table, for every key `K` and every level `L` among `ITLB`, `DTLB`, `STLB`,
the access counter of `L` at `K` in the snapshot (zero when `K` is absent) is the
number of calls made with level `L` and key `K`, and the hit counter of `L` at
`K` is the number of those calls that had `is_hit = true`. -/
theorem snapshot_counts_recorded_calls (calls : List access) (hlen : calls.length < 2 ^ 64)
    (K : key) (L : String) (hL : Level L) :
    (counters_at K (snapshot (record_all calls g_stat))).acc L = access_count L K calls ∧
    (counters_at K (snapshot (record_all calls g_stat))).hit L = hit_count L K calls := by
  have hacc := access_count_le_length L K calls
  have hhit := hit_count_le_access_count L K calls
  have h0 : counters_at K g_stat = counters.zero := rfl
  have hzacc : counters.zero.acc L = 0 := by
    unfold counters.acc counters.zero; split_ifs <;> rfl
  have hzhit : counters.zero.hit L = 0 := by
    unfold counters.hit counters.zero; split_ifs <;> rfl
  constructor
  · have := acc_record_all hL K calls ascending_g_stat (by rw [h0, hzacc]; omega)
    rw [h0, hzacc, Nat.zero_add] at this
    exact this
  · have := hit_record_all hL K calls ascending_g_stat (by rw [h0, hzhit]; omega)
    rw [h0, hzhit, Nat.zero_add] at this
    exact this

/-- Witness of C1 on `sample_calls`: page 100 of core 0 on the instruction side
has four recorded `ITLB` accesses, three of them hits. -/
theorem snapshot_counts_recorded_calls_witness :
    sample_calls.length < 2 ^ 64 ∧ Level "ITLB" ∧
    access_count "ITLB" ⟨0, 100, true⟩ sample_calls = 4 ∧
    hit_count "ITLB" ⟨0, 100, true⟩ sample_calls = 3 ∧
    (counters_at ⟨0, 100, true⟩ (snapshot (record_all sample_calls g_stat))).acc "ITLB"
      = access_count "ITLB" ⟨0, 100, true⟩ sample_calls ∧
    (counters_at ⟨0, 100, true⟩ (snapshot (record_all sample_calls g_stat))).hit "ITLB"
      = hit_count "ITLB" ⟨0, 100, true⟩ sample_calls :=
  ⟨by decide, Or.inl rfl, by decide, by decide,
    snapshot_counts_recorded_calls sample_calls (by decide) ⟨0, 100, true⟩ "ITLB" (Or.inl rfl)⟩

/-- C2 (the code at the failing input): `tlb_access("UNKNOWN", 0, 5, true, true)`
on the empty table, which has no entry for `(0, 5, true)`, leaves a table that
differs from the one before the call: it holds an entry for `(0, 5, true)`, with
all six counters zero, and the export writes a row for that entry. -/
theorem unknown_level_creates_entry :
    find ⟨0, 5, true⟩ (snapshot g_stat) = none ∧
    snapshot (tlb_access "UNKNOWN" 0 5 true true g_stat) = [(⟨0, 5, true⟩, counters.zero)] ∧
    find ⟨0, 5, true⟩ (snapshot (tlb_access "UNKNOWN" 0 5 true true g_stat))
      = some counters.zero ∧
    tlb_access "UNKNOWN" 0 5 true true g_stat ≠ g_stat ∧
    (champsim.json_printer.print champsim.json_printer.insertion_sort
        (tlb_access "UNKNOWN" 0 5 true true g_stat)).map champsim.json_printer.page_json.entry
      = [(⟨0, 5, true⟩, counters.zero)] := by
  decide

end page_stats

/-! ## The export: ranking of the rows -/

namespace champsim.json_printer

open page_stats

theorem sorted_rows_perm {sort : sorter} (hsort : StdSortContract sort) (g : Table) :
    (sorted_rows sort g).Perm (rows_of (snapshot g)) :=
  (hsort hotter hotter_strict_weak _).1

theorem sorted_rows_pairwise {sort : sorter} (hsort : StdSortContract sort) (g : Table) :
    (sorted_rows sort g).Pairwise (fun a b => hotter b a = false) :=
  (hsort hotter hotter_strict_weak _).2

theorem mem_sorted_rows {sort : sorter} (hsort : StdSortContract sort) (g : Table) (r : Row) :
    r ∈ sorted_rows sort g ↔ r ∈ rows_of (snapshot g) :=
  (sorted_rows_perm hsort g).mem_iff

theorem tlb_acc_total_of_lt {r : Row} (h : r.itlb_acc + r.dtlb_acc < 2 ^ 64) :
    tlb_acc_total r = r.itlb_acc + r.dtlb_acc :=
  Nat.mod_eq_of_lt h

theorem hotness_of_not_hotter {a b : Row} (ha : a.itlb_acc + a.dtlb_acc < 2 ^ 64)
    (hb : b.itlb_acc + b.dtlb_acc < 2 ^ 64) (h : hotter b a = false) :
    HotnessOrdered (emit a) (emit b) := by
  simp only [hotter, tlb_acc_total_of_lt ha, tlb_acc_total_of_lt hb] at h
  simp only [HotnessOrdered, emit]
  split_ifs at h with h1 h2 h3
  · simp only [gt_iff_lt, decide_eq_false_iff_not, not_lt] at h
    refine ⟨by omega, fun h4 => absurd h4.symm h1⟩
  · simp only [gt_iff_lt, decide_eq_false_iff_not, not_lt] at h
    simp only [ne_eq, not_not] at h1
    refine ⟨by omega, fun _ => ⟨by omega, fun h4 => absurd h4.symm h2⟩⟩
  · simp only [decide_eq_false_iff_not, not_lt] at h
    simp only [ne_eq, not_not] at h1 h2
    refine ⟨by omega, fun _ => ⟨by omega, fun _ => ⟨by omega, fun h4 => absurd h4.symm h3⟩⟩⟩
  · simp only [decide_eq_false_iff_not, not_lt] at h
    simp only [ne_eq, not_not] at h1 h2 h3
    refine ⟨by omega, fun _ => ⟨by omega, fun _ => ⟨by omega, fun _ => by omega⟩⟩⟩

theorem mem_rows_of_bound {snap : List (key × counters)}
    (hsum : ∀ kv ∈ snap, kv.2.itlb_acc + kv.2.dtlb_acc < 2 ^ 64) {r : Row}
    (hr : r ∈ rows_of snap) : r.itlb_acc + r.dtlb_acc < 2 ^ 64 := by
  simp only [rows_of, List.mem_map] at hr
  obtain ⟨kv, hkv, rfl⟩ := hr
  exact hsum kv hkv

/-- The exported list is pairwise in hotness order. -/
theorem print_pairwise_hotness {sort : sorter} (hsort : StdSortContract sort) (g : Table)
    (hsum : ∀ kv ∈ snapshot g, kv.2.itlb_acc + kv.2.dtlb_acc < 2 ^ 64) :
    (print sort g).Pairwise HotnessOrdered := by
  unfold print
  rw [List.pairwise_map]
  refine List.Pairwise.imp_of_mem ?_ (sorted_rows_pairwise hsort g)
  intro a b ha hb h
  exact hotness_of_not_hotter
    (mem_rows_of_bound hsum ((mem_sorted_rows hsort g a).1 ha))
    (mem_rows_of_bound hsum ((mem_sorted_rows hsort g b).1 hb)) h

/-- C3: in the row list written by the export, any two rows at positions
`i < j` are in hotness order (`itlb_acc + dtlb_acc` of row `i` is at least that
of row `j`; on equality `stlb_acc` of row `i` is at least that of row `j`; on
equality again `core` of row `i` is at most that of row `j`; on equality again
`vpn` of row `i` is at most that of row `j`), provided `itlb_acc + dtlb_acc`
stays below `2 ^ 64` in every row.  In particular, of two rows with
`itlb_acc + dtlb_acc = 10`, the one with `stlb_acc = 5` is at an earlier position
than the one with `stlb_acc = 3`. -/
theorem export_respects_hotness_order (sort : sorter) (hsort : StdSortContract sort)
    (g : Table) (hsum : ∀ kv ∈ snapshot g, kv.2.itlb_acc + kv.2.dtlb_acc < 2 ^ 64) :
    (∀ (i j : Nat) (hij : i < j) (hj : j < (print sort g).length),
      HotnessOrdered ((print sort g).get ⟨i, hij.trans hj⟩) ((print sort g).get ⟨j, hj⟩)) ∧
    (∀ (i j : Nat) (hi : i < (print sort g).length) (hj : j < (print sort g).length),
      ((print sort g).get ⟨i, hi⟩).raw_itlb_acc + ((print sort g).get ⟨i, hi⟩).raw_dtlb_acc = 10 →
      ((print sort g).get ⟨j, hj⟩).raw_itlb_acc + ((print sort g).get ⟨j, hj⟩).raw_dtlb_acc = 10 →
      ((print sort g).get ⟨i, hi⟩).raw_stlb_acc = 5 →
      ((print sort g).get ⟨j, hj⟩).raw_stlb_acc = 3 → i < j) := by
  have hpw := print_pairwise_hotness hsort g hsum
  have hget : ∀ (i j : Nat) (hij : i < j) (hj : j < (print sort g).length),
      HotnessOrdered ((print sort g).get ⟨i, hij.trans hj⟩) ((print sort g).get ⟨j, hj⟩) := by
    intro i j hij hj
    exact List.pairwise_iff_get.1 hpw ⟨i, hij.trans hj⟩ ⟨j, hj⟩ hij
  refine ⟨hget, ?_⟩
  intro i j hi hj hsi hsj hti htj
  rcases Nat.lt_trichotomy i j with h | h | h
  · exact h
  · subst h
    omega
  · have := hget j i h hi
    unfold HotnessOrdered at this
    have h2 := this.2 (by omega)
    omega

/-- Witness of C3 on `scenario_B` with `insertion_sort`: the row with
`stlb_acc = 5` is written first although its key comes second in the snapshot. -/
theorem export_respects_hotness_order_witness :
    (∀ kv ∈ snapshot scenario_B, kv.2.itlb_acc + kv.2.dtlb_acc < 2 ^ 64) ∧
    (print insertion_sort scenario_B).map (fun p => (p.vpn, p.raw_stlb_acc)) = [(2, 5), (1, 3)] ∧
    ((∀ (i j : Nat) (hij : i < j) (hj : j < (print insertion_sort scenario_B).length),
      HotnessOrdered ((print insertion_sort scenario_B).get ⟨i, hij.trans hj⟩)
        ((print insertion_sort scenario_B).get ⟨j, hj⟩)) ∧
    (∀ (i j : Nat) (hi : i < (print insertion_sort scenario_B).length)
        (hj : j < (print insertion_sort scenario_B).length),
      ((print insertion_sort scenario_B).get ⟨i, hi⟩).raw_itlb_acc
        + ((print insertion_sort scenario_B).get ⟨i, hi⟩).raw_dtlb_acc = 10 →
      ((print insertion_sort scenario_B).get ⟨j, hj⟩).raw_itlb_acc
        + ((print insertion_sort scenario_B).get ⟨j, hj⟩).raw_dtlb_acc = 10 →
      ((print insertion_sort scenario_B).get ⟨i, hi⟩).raw_stlb_acc = 5 →
      ((print insertion_sort scenario_B).get ⟨j, hj⟩).raw_stlb_acc = 3 → i < j)) :=
  ⟨by decide, by decide,
    export_respects_hotness_order insertion_sort insertion_sort_contract scenario_B (by decide)⟩

end champsim.json_printer

/-! ## The export is a rearrangement of the table -/

namespace champsim.json_printer

open page_stats

theorem entry_emit_row_of (kv : key × counters) : (emit (row_of kv)).entry = kv := rfl

theorem key_emit_row_of (kv : key × counters) : (emit (row_of kv)).key = kv.1 := rfl

theorem map_entry_emit_rows_of (snap : List (key × counters)) :
    ((rows_of snap).map emit).map page_json.entry = snap := by
  unfold rows_of
  rw [List.map_map, List.map_map]
  exact (List.map_congr_left (fun kv _ => entry_emit_row_of kv)).trans (List.map_id snap)

theorem nodup_keys_of_ascending {l : Table} (hasc : Ascending l) :
    (l.map Prod.fst).Nodup := by
  unfold List.Nodup
  rw [List.pairwise_map]
  exact List.Pairwise.imp (fun h => key.ne_of_lt h) hasc

/-- C5: the row list written by the export is a rearrangement of the table
entries: reading back the key fields and the six raw counters of the rows gives
a permutation of the snapshot, so every entry has exactly one row and no row is
lost, duplicated or invented; the number of rows is the number of entries and
the keys of the rows are pairwise distinct. -/
theorem export_is_rearrangement_of_table (sort : sorter) (hsort : StdSortContract sort)
    (g : Table) (hasc : Ascending g) :
    ((print sort g).map page_json.entry).Perm (snapshot g) ∧
    (print sort g).length = (snapshot g).length ∧
    ((print sort g).map page_json.key).Nodup := by
  have hperm : ((print sort g).map page_json.entry).Perm (snapshot g) := by
    have h1 := ((sorted_rows_perm hsort g).map emit).map page_json.entry
    rw [map_entry_emit_rows_of] at h1
    exact h1
  refine ⟨hperm, ?_, ?_⟩
  · have := hperm.length_eq
    rw [List.length_map] at this
    exact this
  · have hk : (print sort g).map page_json.key
        = ((print sort g).map page_json.entry).map Prod.fst := by
      rw [List.map_map]
      rfl
    rw [hk]
    exact (hperm.map Prod.fst).nodup_iff.2 (nodup_keys_of_ascending hasc)

/-- Witness of C5 on `scenario_B` with `insertion_sort`. -/
theorem export_is_rearrangement_of_table_witness :
    Ascending scenario_B ∧
    ((print insertion_sort scenario_B).map page_json.entry).Perm (snapshot scenario_B) ∧
    (print insertion_sort scenario_B).length = (snapshot scenario_B).length ∧
    ((print insertion_sort scenario_B).map page_json.key).Nodup :=
  ⟨by unfold Ascending; decide,
    export_is_rearrangement_of_table insertion_sort insertion_sort_contract scenario_B
      (by unfold Ascending; decide)⟩

end champsim.json_printer

/-! ## Rows that tie in the ranking -/

namespace champsim.json_printer

open page_stats

/-- The key fields of a row of the vector `rows`. -/
theorem row_key_injective {kv1 kv2 : key × counters} {l : Table} (hasc : Ascending l)
    (h1 : kv1 ∈ l) (h2 : kv2 ∈ l) (hk : kv1.1 = kv2.1) : kv1 = kv2 :=
  List.inj_on_of_nodup_map (nodup_keys_of_ascending hasc) h1 h2 hk

theorem row_of_injective {kv1 kv2 : key × counters} (h : row_of kv1 = row_of kv2) :
    kv1 = kv2 := by
  have := congrArg (fun r => (emit r).entry) h
  simpa [entry_emit_row_of] using this

theorem emit_injective {r1 r2 : Row} (h : emit r1 = emit r2) : r1 = r2 := by
  obtain ⟨a1, a2, a3, a4, a5, a6, a7, a8, a9⟩ := r1
  obtain ⟨b1, b2, b3, b4, b5, b6, b7, b8, b9⟩ := r2
  simp only [emit, page_json.mk.injEq] at h
  simp only [Row.mk.injEq]
  tauto

theorem nodup_rows_of {l : Table} (hasc : Ascending l) : (rows_of l).Nodup := by
  unfold rows_of
  refine List.Nodup.map_on ?_ ((nodup_keys_of_ascending hasc).of_map Prod.fst)
  intro x _ y _ h
  exact row_of_injective h

theorem nodup_sorted_rows {sort : sorter} (hsort : StdSortContract sort) {g : Table}
    (hasc : Ascending g) : (sorted_rows sort g).Nodup :=
  (sorted_rows_perm hsort g).nodup_iff.2 (nodup_rows_of hasc)

/-- Two different elements of a list occur in it in one order or the other. -/
theorem sublist_pair_of_mem {α : Type} {l : List α} {x y : α} (hx : x ∈ l) (hy : y ∈ l)
    (hne : x ≠ y) : List.Sublist [x, y] l ∨ List.Sublist [y, x] l := by
  obtain ⟨s, t, rfl⟩ := List.append_of_mem hx
  rcases List.mem_append.1 hy with h | h
  · right
    have h1 : List.Sublist [y] s := List.singleton_sublist.2 h
    have h2 : List.Sublist [x] (x :: t) := List.singleton_sublist.2 (List.mem_cons_self _ _)
    exact List.Sublist.append h1 h2
  · left
    rcases List.mem_cons.1 h with h | h
    · exact absurd h.symm hne
    · have h1 : List.Sublist [x, y] (x :: t) :=
        List.cons_sublist_cons.2 (List.singleton_sublist.2 h)
      exact h1.trans (List.sublist_append_right s _)

/-- In a list without repetition two elements occur in one order only. -/
theorem not_sublist_both {α : Type} {l : List α} (hnd : l.Nodup) {a b : α}
    (h1 : List.Sublist [a, b] l) (h2 : List.Sublist [b, a] l) : False := by
  have hpw : l.Pairwise (fun x y => x ≠ y) := hnd
  have hab : a ≠ b := List.pairwise_iff_forall_sublist.1 hpw h1
  obtain ⟨s, t, rfl⟩ := List.append_of_mem (h1.subset (List.mem_cons_self _ _))
  have hnd2 := List.nodup_append.1 hnd
  have has : a ∉ s := fun h => hnd2.2.2 h (List.mem_cons_self _ _)
  have hat : a ∉ t := (List.nodup_cons.1 hnd2.2.1).1
  -- `b` cannot be on both sides of the only occurrence of `a`
  have hbt : b ∈ t := by
    rcases List.sublist_append_iff.1 h1 with ⟨l1, l2, hl, hs1, hs2⟩
    cases l1 with
    | nil =>
      simp only [List.nil_append] at hl
      subst hl
      rcases List.sublist_cons_iff.1 hs2 with h | ⟨r, hr, hsub⟩
      · exact absurd (h.subset (List.mem_cons_self _ _)) hat
      · simp only [List.cons.injEq] at hr
        rw [← hr.2] at hsub
        exact hsub.subset (List.mem_cons_self _ _)
    | cons c l1 =>
      simp only [List.cons_append, List.cons.injEq] at hl
      rw [← hl.1] at hs1
      exact absurd (hs1.subset (List.mem_cons_self _ _)) has
  have hbs : b ∈ s := by
    rcases List.sublist_append_iff.1 h2 with ⟨l1, l2, hl, hs1, hs2⟩
    cases l1 with
    | nil =>
      simp only [List.nil_append] at hl
      subst hl
      rcases List.sublist_cons_iff.1 hs2 with h | ⟨r, hr, hsub⟩
      · exact absurd (h.subset (List.mem_cons_of_mem _ (List.mem_cons_self _ _))) hat
      · simp only [List.cons.injEq] at hr
        exact absurd hr.1.symm hab
    | cons c l1 =>
      simp only [List.cons_append, List.cons.injEq] at hl
      rw [← hl.1] at hs1
      exact hs1.subset (List.mem_cons_self _ _)
  exact hnd2.2.2 hbs (List.mem_cons_of_mem _ hbt)

end champsim.json_printer

namespace champsim.json_printer

open page_stats

/-- In a sorted sequence without repetition, two equivalent elements that are
the only members of their equivalence class are next to each other. -/
theorem adjacent_of_equivalent {comp : Row → Row → Bool} (hswo : StrictWeakOrdering comp)
    {l : List Row} (hsorted : l.Pairwise (fun x y => comp y x = false)) (hnd : l.Nodup)
    {a b : Row} (ha : a ∈ l) (hb : b ∈ l) (hne : a ≠ b)
    (hab : comp a b = false) (hba : comp b a = false)
    (honly : ∀ c ∈ l, comp c a = false → comp a c = false → c = a ∨ c = b) :
    ∃ pre post, l = pre ++ a :: b :: post ∨ l = pre ++ b :: a :: post := by
  obtain ⟨s, t, rfl⟩ := List.append_of_mem ha
  have hnd2 := List.nodup_append.1 hnd
  have hs2 := List.pairwise_append.1 hsorted
  rcases List.mem_append.1 hb with h | h
  · -- `b` is in front of `a`
    obtain ⟨u, v, rfl⟩ := List.append_of_mem h
    have hv : v = [] := by
      apply List.eq_nil_iff_forall_not_mem.2
      intro c hc
      have hcs : c ∈ u ++ b :: v := List.mem_append_right _ (List.mem_cons_of_mem _ hc)
      have h1 : comp a c = false := hs2.2.2 c hcs a (List.mem_cons_self _ _)
      have h2 : comp c b = false :=
        (List.pairwise_cons.1 (List.pairwise_append.1 hs2.1).2.1).1 c hc
      have h4 : comp c a = false := hswo.neg_trans h2 hba
      have hnd3 := List.nodup_append.1 hnd2.1
      rcases honly c (List.mem_append_left _ hcs) h4 h1 with h5 | h5
      · subst h5
        exact hnd2.2.2 hcs (List.mem_cons_self _ _)
      · subst h5
        exact (List.nodup_cons.1 hnd3.2.1).1 hc
    subst hv
    exact ⟨u, t, Or.inr (by simp)⟩
  · rcases List.mem_cons.1 h with h | h
    · exact absurd h.symm hne
    · -- `b` is behind `a`
      obtain ⟨u, v, rfl⟩ := List.append_of_mem h
      have hu : u = [] := by
        apply List.eq_nil_iff_forall_not_mem.2
        intro c hc
        have hct : c ∈ u ++ b :: v := List.mem_append_left _ hc
        have hat := List.pairwise_cons.1 hs2.2.1
        have h1 : comp c a = false := hat.1 c hct
        have h2 : comp b c = false :=
          (List.pairwise_append.1 hat.2).2.2 c hc b (List.mem_cons_self _ _)
        have h3 : comp a c = false := hswo.neg_trans hab h2
        have hnd3 := List.nodup_cons.1 hnd2.2.1
        rcases honly c (List.mem_append_right _ (List.mem_cons_of_mem _ hct)) h1 h3 with h5 | h5
        · subst h5
          exact hnd3.1 hct
        · subst h5
          exact (List.nodup_append.1 hnd3.2).2.2 hc (List.mem_cons_self _ _)
      subst hu
      exact ⟨s, v, Or.inl (by simp)⟩

theorem insert_before_split (comp : Row → Row → Bool) (x : Row) (l : List Row) :
    ∃ l1 l2, l = l1 ++ l2 ∧ insert_before comp x l = l1 ++ x :: l2 ∧
      ∀ y ∈ l1, comp y x = true := by
  induction l with
  | nil => exact ⟨[], [], rfl, rfl, by simp⟩
  | cons y ys ih =>
    obtain ⟨l1, l2, h1, h2, h3⟩ := ih
    unfold insert_before
    split_ifs with hc
    · refine ⟨y :: l1, l2, by rw [h1]; rfl, by rw [h2]; rfl, ?_⟩
      intro z hz
      rcases List.mem_cons.1 hz with h | h
      · rw [h]; exact hc
      · exact h3 z h
    · exact ⟨[], y :: ys, rfl, rfl, by simp⟩

/-- The routine `insertion_sort` keeps equivalent elements in input order. -/
theorem insertion_sort_stable : Stable insertion_sort := by
  intro comp _ l a b hab hba hsub
  induction l with
  | nil => simp at hsub
  | cons x xs ih =>
    unfold insertion_sort
    obtain ⟨l1, l2, h1, h2, h3⟩ := insert_before_split comp x (insertion_sort comp xs)
    rw [h2]
    rcases List.sublist_cons_iff.1 hsub with h | ⟨r, hr, hs⟩
    · have h4 := ih h
      rw [h1] at h4
      exact h4.trans (List.Sublist.append (List.Sublist.refl l1) (List.sublist_cons_self x l2))
    · simp only [List.cons.injEq] at hr
      obtain ⟨hax, hr⟩ := hr
      subst hax
      subst hr
      have hbm : b ∈ insertion_sort comp xs :=
        (perm_insertion_sort comp xs).mem_iff.2 (hs.subset (List.mem_cons_self _ _))
      rw [h1] at hbm
      rcases List.mem_append.1 hbm with h | h
      · have := h3 b h
        rw [hba] at this
        exact absurd this Bool.false_ne_true
      · have h5 : List.Sublist [a, b] (a :: l2) :=
          List.cons_sublist_cons.2 (List.singleton_sublist.2 h)
        exact h5.trans (List.sublist_append_right l1 _)

end champsim.json_printer

namespace champsim.json_printer

open page_stats

/-- The two rows of one page that differ only by `is_instr` and tie in the
ranking are next to each other after sorting; a stable routine leaves the
data-side row first. -/
theorem tied_rows_in_sorted_rows {sort : sorter} (hsort : StdSortContract sort) {g : Table}
    (hasc : Ascending g) {core vpn : Nat} {cf ct : counters}
    (hf : (⟨core, vpn, false⟩, cf) ∈ snapshot g) (ht : (⟨core, vpn, true⟩, ct) ∈ snapshot g)
    (htlb : cf.itlb_acc + cf.dtlb_acc = ct.itlb_acc + ct.dtlb_acc)
    (hstlb : cf.stlb_acc = ct.stlb_acc) :
    (∃ pre post,
      sorted_rows sort g
          = pre ++ row_of (⟨core, vpn, false⟩, cf) :: row_of (⟨core, vpn, true⟩, ct) :: post ∨
      sorted_rows sort g
          = pre ++ row_of (⟨core, vpn, true⟩, ct) :: row_of (⟨core, vpn, false⟩, cf) :: post) ∧
    (Stable sort → ∃ pre post,
      sorted_rows sort g
          = pre ++ row_of (⟨core, vpn, false⟩, cf) :: row_of (⟨core, vpn, true⟩, ct) :: post) := by
  have hfr : row_of (⟨core, vpn, false⟩, cf) ∈ rows_of (snapshot g) := List.mem_map_of_mem _ hf
  have htr : row_of (⟨core, vpn, true⟩, ct) ∈ rows_of (snapshot g) := List.mem_map_of_mem _ ht
  have hne : row_of (⟨core, vpn, false⟩, cf) ≠ row_of (⟨core, vpn, true⟩, ct) := by
    intro h
    have := congrArg Row.is_instr h
    simp [row_of] at this
  have hequiv := (hotter_incomparable_iff (row_of (⟨core, vpn, false⟩, cf))
      (row_of (⟨core, vpn, true⟩, ct))).2
    ⟨by simp only [tlb_acc_total, row_of]; rw [htlb], hstlb, rfl, rfl⟩
  have hnd := nodup_sorted_rows hsort hasc
  have honly : ∀ c ∈ sorted_rows sort g, hotter c (row_of (⟨core, vpn, false⟩, cf)) = false →
      hotter (row_of (⟨core, vpn, false⟩, cf)) c = false →
      c = row_of (⟨core, vpn, false⟩, cf) ∨ c = row_of (⟨core, vpn, true⟩, ct) := by
    intro c hc h1 h2
    have hfields := (hotter_incomparable_iff c _).1 ⟨h1, h2⟩
    have hcm := (mem_sorted_rows hsort g c).1 hc
    simp only [rows_of, List.mem_map] at hcm
    obtain ⟨kv, hkv, rfl⟩ := hcm
    obtain ⟨⟨kc, kvp, ki⟩, cc⟩ := kv
    simp only [row_of] at hfields
    obtain ⟨-, -, hcore, hvpn⟩ := hfields
    subst hcore hvpn
    cases ki with
    | false =>
      left
      exact congrArg row_of (row_key_injective hasc hkv hf rfl)
    | true =>
      right
      exact congrArg row_of (row_key_injective hasc hkv ht rfl)
  have hadj := adjacent_of_equivalent hotter_strict_weak (sorted_rows_pairwise hsort g) hnd
    ((mem_sorted_rows hsort g _).2 hfr) ((mem_sorted_rows hsort g _).2 htr) hne
    hequiv.1 hequiv.2 honly
  refine ⟨hadj, ?_⟩
  intro hstable
  have hsub : List.Sublist [(⟨core, vpn, false⟩, cf), ((⟨core, vpn, true⟩ : key), ct)]
      (snapshot g) := by
    rcases sublist_pair_of_mem hf ht (by simp) with h | h
    · exact h
    · have hlt : key.lt ⟨core, vpn, true⟩ ⟨core, vpn, false⟩ = true :=
        List.pairwise_iff_forall_sublist.1 hasc h
      simp [key.lt] at hlt
  have hsub2 : List.Sublist
      [row_of (⟨core, vpn, false⟩, cf), row_of (⟨core, vpn, true⟩, ct)]
      (sorted_rows sort g) :=
    hstable hotter hotter_strict_weak _ _ _ hequiv.1 hequiv.2 (hsub.map row_of)
  obtain ⟨pre, post, h | h⟩ := hadj
  · exact ⟨pre, post, h⟩
  · exfalso
    apply not_sublist_both hnd hsub2
    rw [h]
    exact (List.cons_sublist_cons.2 (List.cons_sublist_cons.2 (List.nil_sublist post))).trans
      (List.sublist_append_right pre _)

/-- On the two-row table recorded by `tie_calls` the `std::sort` of libstdc++,
an insertion sort on at most sixteen rows, leaves the tied rows in the key
order of the snapshot. -/
theorem two_tied_rows_kept_in_key_order :
    (print gnu_sort (record_all tie_calls g_stat)).map page_json.key
      = [⟨0, 5, false⟩, ⟨0, 5, true⟩] := by
  decide

/-- C4 (the claim as stated fails): on the table recorded by `tied_pages_calls`
the snapshot lists, for each of the pages 0 to 8, the `is_instr = false` entry
before the `is_instr = true` entry, the two with equal counters; the `std::sort`
of libstdc++ runs on its eighteen rows without leaving the vector and returns
a sorted rearrangement of them, and the export writes the `is_instr = true` row
first for page 0 and for page 4. -/
theorem tied_rows_reordered_by_std_sort :
    (snapshot (record_all tied_pages_calls g_stat)).map Prod.fst
      = [⟨0, 0, false⟩, ⟨0, 0, true⟩, ⟨0, 1, false⟩, ⟨0, 1, true⟩, ⟨0, 2, false⟩,
         ⟨0, 2, true⟩, ⟨0, 3, false⟩, ⟨0, 3, true⟩, ⟨0, 4, false⟩, ⟨0, 4, true⟩,
         ⟨0, 5, false⟩, ⟨0, 5, true⟩, ⟨0, 6, false⟩, ⟨0, 6, true⟩, ⟨0, 7, false⟩,
         ⟨0, 7, true⟩, ⟨0, 8, false⟩, ⟨0, 8, true⟩] ∧
    (snapshot (record_all tied_pages_calls g_stat)).map Prod.snd
      = List.replicate 18 ⟨0, 0, 0, 0, 1, 0⟩ ∧
    (libstdcxx.sort hotter (rows_of (snapshot (record_all tied_pages_calls g_stat)))).isSome
      = true ∧
    (sorted_rows gnu_sort (record_all tied_pages_calls g_stat)).Perm
      (rows_of (snapshot (record_all tied_pages_calls g_stat))) ∧
    (sorted_rows gnu_sort (record_all tied_pages_calls g_stat)).Pairwise
      (fun a b => hotter b a = false) ∧
    (print gnu_sort (record_all tied_pages_calls g_stat)).map page_json.key
      = [⟨0, 0, true⟩, ⟨0, 0, false⟩, ⟨0, 1, false⟩, ⟨0, 1, true⟩, ⟨0, 2, false⟩,
         ⟨0, 2, true⟩, ⟨0, 3, false⟩, ⟨0, 3, true⟩, ⟨0, 4, true⟩, ⟨0, 4, false⟩,
         ⟨0, 5, false⟩, ⟨0, 5, true⟩, ⟨0, 6, false⟩, ⟨0, 6, true⟩, ⟨0, 7, false⟩,
         ⟨0, 7, true⟩, ⟨0, 8, false⟩, ⟨0, 8, true⟩] := by
  refine ⟨by decide, by decide, by decide, by decide, by decide, by decide⟩

/-- C4 (amended): for every table, the two rows of one core and vpn that differ
only by `is_instr` and tie on the ranking fields (equal `itlb_acc + dtlb_acc`,
equal `stlb_acc`) are written by the export at adjacent positions, in one order
or the other; when the sorting routine is stable they are written in the key
order of the snapshot, the `is_instr = false` row first. -/
theorem tied_rows_adjacent_in_export (sort : sorter) (hsort : StdSortContract sort) (g : Table)
    (hasc : Ascending g) (core vpn : Nat) (cf ct : counters)
    (hf : (⟨core, vpn, false⟩, cf) ∈ snapshot g) (ht : (⟨core, vpn, true⟩, ct) ∈ snapshot g)
    (htlb : cf.itlb_acc + cf.dtlb_acc = ct.itlb_acc + ct.dtlb_acc)
    (hstlb : cf.stlb_acc = ct.stlb_acc) :
    (∃ pre post,
      print sort g = pre ++ emit (row_of (⟨core, vpn, false⟩, cf))
          :: emit (row_of (⟨core, vpn, true⟩, ct)) :: post ∨
      print sort g = pre ++ emit (row_of (⟨core, vpn, true⟩, ct))
          :: emit (row_of (⟨core, vpn, false⟩, cf)) :: post) ∧
    (Stable sort → ∃ pre post,
      print sort g = pre ++ emit (row_of (⟨core, vpn, false⟩, cf))
          :: emit (row_of (⟨core, vpn, true⟩, ct)) :: post) := by
  obtain ⟨h1, h2⟩ := tied_rows_in_sorted_rows hsort hasc hf ht htlb hstlb
  unfold print
  constructor
  · obtain ⟨pre, post, h | h⟩ := h1
    · exact ⟨pre.map emit, post.map emit, Or.inl (by rw [h]; simp)⟩
    · exact ⟨pre.map emit, post.map emit, Or.inr (by rw [h]; simp)⟩
  · intro hstable
    obtain ⟨pre, post, h⟩ := h2 hstable
    exact ⟨pre.map emit, post.map emit, by rw [h]; simp⟩

/-- Witness of C4 (amended) on the table recorded by `tie_calls`, with the stable
routine `insertion_sort`: the two rows of page 5 are adjacent, data side first. -/
theorem tied_rows_adjacent_in_export_witness :
    Ascending (record_all tie_calls g_stat) ∧
    ((⟨0, 5, false⟩, ⟨0, 0, 0, 0, 1, 0⟩) : key × counters)
      ∈ snapshot (record_all tie_calls g_stat) ∧
    ((⟨0, 5, true⟩, ⟨0, 0, 0, 0, 1, 0⟩) : key × counters)
      ∈ snapshot (record_all tie_calls g_stat) ∧
    Stable insertion_sort ∧
    ∃ pre post,
      print insertion_sort (record_all tie_calls g_stat)
        = pre ++ emit (row_of (⟨0, 5, false⟩, ⟨0, 0, 0, 0, 1, 0⟩))
          :: emit (row_of (⟨0, 5, true⟩, ⟨0, 0, 0, 0, 1, 0⟩)) :: post :=
  ⟨ascending_record_all tie_calls ascending_g_stat, by decide, by decide, insertion_sort_stable,
    (tied_rows_adjacent_in_export insertion_sort insertion_sort_contract
      (record_all tie_calls g_stat) (ascending_record_all tie_calls ascending_g_stat) 0 5
      ⟨0, 0, 0, 0, 1, 0⟩ ⟨0, 0, 0, 0, 1, 0⟩ (by decide) (by decide) rfl rfl).2
      insertion_sort_stable⟩

end champsim.json_printer

/-! ## Calls of `tlb_access` commute -/

namespace page_stats

/-- Two maps that hold the same counters under every key are the same map. -/
theorem ascending_ext {l1 l2 : Table} (h1 : Ascending l1) (h2 : Ascending l2)
    (h : ∀ K, find K l1 = find K l2) : l1 = l2 := by
  induction l1 generalizing l2 with
  | nil =>
    cases l2 with
    | nil => rfl
    | cons e r =>
      have := h e.1
      simp [find_nil, find_cons] at this
  | cons e1 r1 ih =>
    cases l2 with
    | nil =>
      have := h e1.1
      simp [find_nil, find_cons] at this
    | cons e2 r2 =>
      obtain ⟨k1, c1⟩ := e1
      obtain ⟨k2, c2⟩ := e2
      have hh1 := (List.pairwise_cons.1 h1).1
      have hh2 := (List.pairwise_cons.1 h2).1
      have hk : k1 = k2 := by
        by_contra hne
        have hm1 : (k1, c1) ∈ (k2, c2) :: r2 :=
          mem_of_find_eq_some ((h k1).symm.trans (by simp [find_cons]))
        have hm2 : (k2, c2) ∈ (k1, c1) :: r1 :=
          mem_of_find_eq_some ((h k2).trans (by simp [find_cons]))
        rcases List.mem_cons.1 hm1 with hm1 | hm1
        · exact hne (congrArg Prod.fst hm1)
        · rcases List.mem_cons.1 hm2 with hm2 | hm2
          · exact hne (congrArg Prod.fst hm2).symm
          · have ha : key.lt k2 k1 = true := hh2 _ hm1
            have hb : key.lt k1 k2 = true := hh1 _ hm2
            rw [key.lt_asymm ha] at hb
            exact Bool.false_ne_true hb
      subst hk
      have hc : c1 = c2 := by
        have := h k1
        simpa [find_cons] using this
      subst hc
      have hrest : r1 = r2 := by
        apply ih (List.pairwise_cons.1 h1).2 (List.pairwise_cons.1 h2).2
        intro K
        by_cases hK : k1 = K
        · subst hK
          rw [find_eq_none_of_forall_ne (fun kv hkv => (key.ne_of_lt (hh1 kv hkv)).symm),
            find_eq_none_of_forall_ne (fun kv hkv => (key.ne_of_lt (hh2 kv hkv)).symm)]
        · have := h K
          rw [find_cons, find_cons, if_neg hK, if_neg hK] at this
          exact this
      rw [hrest]

theorem bump_comm (w1 w2 : String) (b1 b2 : Bool) (c : counters) :
    bump w1 b1 (bump w2 b2 c) = bump w2 b2 (bump w1 b1 c) := by
  unfold bump
  by_cases h1 : w1 = "ITLB" <;> by_cases h2 : w1 = "DTLB" <;> by_cases h3 : w1 = "STLB" <;>
    by_cases h4 : w2 = "ITLB" <;> by_cases h5 : w2 = "DTLB" <;> by_cases h6 : w2 = "STLB" <;>
    cases b1 <;> cases b2 <;> simp_all

theorem find_apply (a : access) (K : key) {g : Table} (hasc : Ascending g) :
    find K (a.apply g)
      = if K = a.key then some (bump a.which a.is_hit (counters_at K g)) else find K g := by
  unfold access.apply tlb_access
  rw [find_subscript_update _ _ _ hasc]
  by_cases h : K = a.key
  · subst h
    simp [access.key]
  · have h1 : ¬ K = ⟨a.core, a.vpn, a.is_instr⟩ := h
    rw [if_neg h1, if_neg h]

theorem ascending_apply (a : access) {g : Table} (hasc : Ascending g) :
    Ascending (a.apply g) :=
  ascending_tlb_access a.which a.core a.vpn a.is_hit a.is_instr hasc

/-- Two calls of `tlb_access` made in either order leave the same map. -/
theorem apply_comm (a b : access) {g : Table} (hasc : Ascending g) :
    a.apply (b.apply g) = b.apply (a.apply g) := by
  apply ascending_ext (ascending_apply a (ascending_apply b hasc))
    (ascending_apply b (ascending_apply a hasc))
  intro K
  rw [find_apply a K (ascending_apply b hasc), find_apply b K (ascending_apply a hasc),
    counters_at_apply b K hasc, counters_at_apply a K hasc, find_apply b K hasc,
    find_apply a K hasc]
  split_ifs <;> first | rfl | rw [bump_comm]

theorem record_all_cons (a : access) (calls : List access) (g : Table) :
    record_all (a :: calls) g = record_all calls (a.apply g) := rfl

theorem record_all_perm {calls1 calls2 : List access} (hperm : calls1.Perm calls2) {g : Table}
    (hasc : Ascending g) : record_all calls1 g = record_all calls2 g := by
  induction hperm generalizing g with
  | nil => rfl
  | cons a _ ih => exact ih (ascending_apply a hasc)
  | swap a b l =>
    rw [record_all_cons, record_all_cons, record_all_cons, record_all_cons, apply_comm a b hasc]
  | trans _ _ ih1 ih2 => exact (ih1 hasc).trans (ih2 hasc)

end page_stats

namespace champsim.json_printer

open page_stats

/-- C6: two sequences of `tlb_access` calls that are permutations of one
another, applied to the same table, leave equal tables, and the exports of the
two tables are the same list of rows, in the same order. -/
theorem export_independent_of_call_order (sort : sorter) (g : Table) (hasc : Ascending g)
    (calls1 calls2 : List access) (hperm : calls1.Perm calls2) :
    record_all calls1 g = record_all calls2 g ∧
    print sort (record_all calls1 g) = print sort (record_all calls2 g) := by
  have h := record_all_perm hperm hasc
  exact ⟨h, by rw [h]⟩

/-- Witness of C6: `sample_calls` and the same calls made in reverse order, on
the table `scenario_B`. -/
theorem export_independent_of_call_order_witness :
    Ascending scenario_B ∧ sample_calls.reverse.Perm sample_calls ∧
    record_all sample_calls.reverse scenario_B = record_all sample_calls scenario_B ∧
    print insertion_sort (record_all sample_calls.reverse scenario_B)
      = print insertion_sort (record_all sample_calls scenario_B) :=
  ⟨by unfold Ascending; decide, List.reverse_perm _,
    export_independent_of_call_order insertion_sort scenario_B (by unfold Ascending; decide)
      sample_calls.reverse sample_calls (List.reverse_perm _)⟩

end champsim.json_printer

/-! ## Hits never exceed accesses in a recorded table -/

namespace page_stats

theorem within_zero (m : Nat) : counters.zero.WithinCalls m := by
  simp [counters.WithinCalls, counters.zero]

theorem within_mono {m n : Nat} {c : counters} (h : c.WithinCalls m) (hmn : m ≤ n) :
    c.WithinCalls n := by
  unfold counters.WithinCalls at h ⊢
  omega

theorem bump_within {m : Nat} {c : counters} (h : c.WithinCalls m) (hm : m + 1 < 2 ^ 64)
    (which : String) (is_hit : Bool) : (bump which is_hit c).WithinCalls (m + 1) := by
  unfold counters.WithinCalls at h
  obtain ⟨⟨h1, h2⟩, ⟨h3, h4⟩, ⟨h5, h6⟩⟩ := h
  have e1 : incr64 c.itlb_acc = c.itlb_acc + 1 := incr64_of_lt (by omega)
  have e2 : incr64 c.itlb_hit = c.itlb_hit + 1 := incr64_of_lt (by omega)
  have e3 : incr64 c.dtlb_acc = c.dtlb_acc + 1 := incr64_of_lt (by omega)
  have e4 : incr64 c.dtlb_hit = c.dtlb_hit + 1 := incr64_of_lt (by omega)
  have e5 : incr64 c.stlb_acc = c.stlb_acc + 1 := incr64_of_lt (by omega)
  have e6 : incr64 c.stlb_hit = c.stlb_hit + 1 := incr64_of_lt (by omega)
  unfold bump counters.WithinCalls
  split_ifs <;> (try dsimp only) <;> (try simp only [e1, e2, e3, e4, e5, e6]) <;> omega

/-- An entry of the map after a call of `tlb_access` is an entry of the map
before the call, or the result of `bump` on such an entry or on zero counters. -/
theorem mem_apply {a : access} {g : Table} (hasc : Ascending g) {kv : key × counters}
    (h : kv ∈ a.apply g) :
    kv ∈ g ∨ ∃ c, (c = counters.zero ∨ ∃ k, (k, c) ∈ g) ∧ kv.2 = bump a.which a.is_hit c := by
  have hf : find kv.1 (a.apply g) = some kv.2 :=
    find_eq_some_of_mem (ascending_apply a hasc) h
  rw [find_apply a kv.1 hasc] at hf
  by_cases hk : kv.1 = a.key
  · rw [if_pos hk] at hf
    right
    refine ⟨counters_at kv.1 g, ?_, (Option.some.inj hf).symm⟩
    unfold counters_at
    cases hfind : find kv.1 g with
    | none => left; rfl
    | some c => right; exact ⟨kv.1, mem_of_find_eq_some hfind⟩
  · rw [if_neg hk] at hf
    left
    exact mem_of_find_eq_some hf

theorem run_cons (c : command) (cmds : List command) (g : Table) :
    run (c :: cmds) g = run cmds (c.apply g) := rfl

theorem record_count_cons_record (a : access) (cmds : List command) :
    record_count (command.record a :: cmds) = record_count cmds + 1 := by
  simp [record_count]

theorem record_count_cons_clear (cmds : List command) :
    record_count (command.clear :: cmds) = record_count cmds := by
  simp [record_count]

/-- The invariant of the recorder: after `m` calls of `tlb_access` at most, every
hit counter is at most its access counter, which is at most `m`. -/
theorem run_within (cmds : List command) {g : Table} {m : Nat} (hasc : Ascending g)
    (hg : ∀ kv ∈ g, kv.2.WithinCalls m) (hm : m + record_count cmds < 2 ^ 64) :
    Ascending (run cmds g) ∧ ∀ kv ∈ run cmds g, kv.2.WithinCalls (m + record_count cmds) := by
  induction cmds generalizing g m with
  | nil => exact ⟨hasc, fun kv hkv => within_mono (hg kv hkv) (Nat.le_add_right _ _)⟩
  | cons c cmds ih =>
    rw [run_cons]
    cases c with
    | record a =>
      rw [record_count_cons_record] at hm ⊢
      have hstep : ∀ kv ∈ a.apply g, kv.2.WithinCalls (m + 1) := by
        intro kv hkv
        rcases mem_apply hasc hkv with h | ⟨c, hc, hb⟩
        · exact within_mono (hg kv h) (Nat.le_succ m)
        · rw [hb]
          rcases hc with hc | ⟨k, hc⟩
          · rw [hc]
            exact bump_within (within_zero m) (by omega) _ _
          · exact bump_within (hg _ hc) (by omega) _ _
      have := ih (ascending_apply a hasc) hstep (by omega)
      have e : m + 1 + record_count cmds = m + (record_count cmds + 1) := by omega
      rw [e] at this
      exact this
    | clear =>
      rw [record_count_cons_clear] at hm ⊢
      exact ih (g := []) List.Pairwise.nil (fun kv hkv => absurd hkv (List.not_mem_nil kv)) hm

/-- In a table reached from the empty one by fewer than `2 ^ 64` calls of
`tlb_access`, and any calls of `clear`, hits never exceed accesses. -/
theorem hits_le_accesses {cmds : List command} (hcount : record_count cmds < 2 ^ 64)
    {kv : key × counters} (hkv : kv ∈ run cmds g_stat) :
    kv.2.itlb_hit ≤ kv.2.itlb_acc ∧ kv.2.dtlb_hit ≤ kv.2.dtlb_acc ∧
      kv.2.stlb_hit ≤ kv.2.stlb_acc := by
  have h := (run_within cmds ascending_g_stat
    (fun kv hkv => absurd hkv (List.not_mem_nil kv)) (m := 0) (by omega)).2 kv hkv
  unfold counters.WithinCalls at h
  omega

end page_stats

namespace champsim.json_printer

open page_stats

theorem rate_of_pos {num den : Nat} (h : 0 < den) : div num den = (num : ℚ) / (den : ℚ) := by
  unfold div
  rw [if_pos (Nat.pos_iff_ne_zero.1 h)]

theorem rate_zero_den (num : Nat) : div num 0 = 0 := by
  simp [div]

theorem rate_nonneg (num den : Nat) : 0 ≤ div num den := by
  unfold div
  split_ifs
  · positivity
  · exact le_refl 0

theorem rate_le_one {num den : Nat} (h : num ≤ den) : div num den ≤ 1 := by
  unfold div
  split_ifs with hd
  · have hpos : (0 : ℚ) < (den : ℚ) := by
      exact_mod_cast Nat.pos_of_ne_zero hd
    rw [div_le_one hpos]
    exact_mod_cast h
  · exact zero_le_one

end champsim.json_printer

/-! ## Derived metrics of the export -/

namespace champsim.json_printer

open page_stats

/-- A hit rate `div hits accesses` with `hits ≤ accesses`. -/
theorem rate_bounds {hits accesses : Nat} (h : hits ≤ accesses) :
    (0 < accesses →
      div hits accesses = (hits : ℚ) / (accesses : ℚ) ∧ 0 ≤ div hits accesses
        ∧ div hits accesses ≤ 1) ∧
    (accesses = 0 → div hits accesses = 0) := by
  refine ⟨fun hpos => ⟨rate_of_pos hpos, rate_nonneg _ _, rate_le_one h⟩, ?_⟩
  intro h0
  rw [h0]
  exact rate_zero_den hits

/-- Every exported row is the image of an entry of the table. -/
theorem mem_print {sort : sorter} (hsort : StdSortContract sort) {g : Table} {p : page_json}
    (hp : p ∈ print sort g) : ∃ kv ∈ snapshot g, p = emit (row_of kv) := by
  unfold print at hp
  obtain ⟨r, hr, rfl⟩ := List.mem_map.1 hp
  have hr2 := (mem_sorted_rows hsort g r).1 hr
  obtain ⟨kv, hkv, rfl⟩ := List.mem_map.1 hr2
  exact ⟨kv, hkv, rfl⟩

/-- C7: in the export of a table reached from the empty table by calls of
`tlb_access` and `clear`, with fewer than `2 ^ 64` calls of `tlb_access`, each
of the three hit rates of every row, as an exact rational, is `hits / accesses`
and lies in `[0, 1]` when the access count of its level is positive, and is `0`
when that access count is zero. -/
theorem hit_rates_within_unit_interval (sort : sorter) (hsort : StdSortContract sort)
    (cmds : List command) (hcount : record_count cmds < 2 ^ 64)
    (p : page_json) (hp : p ∈ print sort (run cmds g_stat)) :
    ((0 < p.raw_itlb_acc →
        p.itlb_hit_rate = (p.raw_itlb_hit : ℚ) / (p.raw_itlb_acc : ℚ) ∧
        0 ≤ p.itlb_hit_rate ∧ p.itlb_hit_rate ≤ 1) ∧
      (p.raw_itlb_acc = 0 → p.itlb_hit_rate = 0)) ∧
    ((0 < p.raw_dtlb_acc →
        p.dtlb_hit_rate = (p.raw_dtlb_hit : ℚ) / (p.raw_dtlb_acc : ℚ) ∧
        0 ≤ p.dtlb_hit_rate ∧ p.dtlb_hit_rate ≤ 1) ∧
      (p.raw_dtlb_acc = 0 → p.dtlb_hit_rate = 0)) ∧
    ((0 < p.raw_stlb_acc →
        p.stlb_hit_rate = (p.raw_stlb_hit : ℚ) / (p.raw_stlb_acc : ℚ) ∧
        0 ≤ p.stlb_hit_rate ∧ p.stlb_hit_rate ≤ 1) ∧
      (p.raw_stlb_acc = 0 → p.stlb_hit_rate = 0)) := by
  obtain ⟨kv, hkv, rfl⟩ := mem_print hsort hp
  obtain ⟨h1, h2, h3⟩ := hits_le_accesses hcount hkv
  exact ⟨rate_bounds h1, rate_bounds h2, rate_bounds h3⟩

/-- Witness of C7 on `sample_commands` with `insertion_sort`: the hottest row,
page 100 of core 0, has four `ITLB` accesses and three hits. -/
theorem hit_rates_within_unit_interval_witness :
    record_count sample_commands < 2 ^ 64 ∧
    emit (row_of (⟨0, 100, true⟩, ⟨4, 3, 0, 0, 0, 0⟩))
      ∈ print insertion_sort (run sample_commands g_stat) ∧
    (0 < (emit (row_of (⟨0, 100, true⟩, ⟨4, 3, 0, 0, 0, 0⟩))).raw_itlb_acc →
      (emit (row_of (⟨0, 100, true⟩, ⟨4, 3, 0, 0, 0, 0⟩))).itlb_hit_rate
        = ((emit (row_of (⟨0, 100, true⟩, ⟨4, 3, 0, 0, 0, 0⟩))).raw_itlb_hit : ℚ)
          / ((emit (row_of (⟨0, 100, true⟩, ⟨4, 3, 0, 0, 0, 0⟩))).raw_itlb_acc : ℚ) ∧
      0 ≤ (emit (row_of (⟨0, 100, true⟩, ⟨4, 3, 0, 0, 0, 0⟩))).itlb_hit_rate ∧
      (emit (row_of (⟨0, 100, true⟩, ⟨4, 3, 0, 0, 0, 0⟩))).itlb_hit_rate ≤ 1) ∧
    ((emit (row_of (⟨0, 100, true⟩, ⟨4, 3, 0, 0, 0, 0⟩))).raw_dtlb_acc = 0 →
      (emit (row_of (⟨0, 100, true⟩, ⟨4, 3, 0, 0, 0, 0⟩))).dtlb_hit_rate = 0) :=
  have hmem : emit (row_of (⟨0, 100, true⟩, ⟨4, 3, 0, 0, 0, 0⟩))
      ∈ print insertion_sort (run sample_commands g_stat) :=
    List.mem_map_of_mem emit (by decide)
  have h := hit_rates_within_unit_interval insertion_sort insertion_sort_contract
    sample_commands (by decide) _ hmem
  ⟨by decide, hmem, h.1.1, h.2.1.2⟩

/-- C8: for every row, whatever its `stlb_acc` and `stlb_hit`, the exported
`stlb_ptw` is `max (stlb_acc - stlb_hit) 0` computed over the integers: it is
`stlb_acc - stlb_hit` when `stlb_acc ≥ stlb_hit` and `0` when
`stlb_hit > stlb_acc`; it never exceeds `stlb_acc`, so it never wraps to a large
unsigned value. -/
theorem stlb_ptw_is_clamped_difference (r : Row) :
    (emit r).raw_stlb_ptw = stlb_ptw r ∧
    ((emit r).raw_stlb_ptw : ℤ) = max ((r.stlb_acc : ℤ) - (r.stlb_hit : ℤ)) 0 ∧
    (r.stlb_acc ≥ r.stlb_hit →
      ((emit r).raw_stlb_ptw : ℤ) = (r.stlb_acc : ℤ) - (r.stlb_hit : ℤ)) ∧
    (r.stlb_hit > r.stlb_acc → (emit r).raw_stlb_ptw = 0) ∧
    (emit r).raw_stlb_ptw ≤ r.stlb_acc := by
  have hdef : (emit r).raw_stlb_ptw = stlb_ptw r := rfl
  rw [hdef]
  unfold stlb_ptw
  refine ⟨rfl, ?_, ?_, ?_, ?_⟩
  · split_ifs with h
    · rw [max_eq_left (by omega)]
      omega
    · rw [max_eq_right (by omega)]
      rfl
  · intro h
    rw [if_pos h]
    omega
  · intro h
    rw [if_neg (by omega)]
  · split_ifs <;> omega

/-- C9: for every row with `itlb_acc + dtlb_acc` below `2 ^ 64`, the exported
`ptw_rate`, as an exact rational, is `stlb_ptw / (itlb_acc + dtlb_acc)` when
`itlb_acc + dtlb_acc` is not zero and is `0` when it is zero; in every case it
is at least `0`. -/
theorem ptw_rate_is_guarded_quotient (r : Row) (hsum : r.itlb_acc + r.dtlb_acc < 2 ^ 64) :
    (r.itlb_acc + r.dtlb_acc ≠ 0 →
      (emit r).ptw_rate
        = ((emit r).raw_stlb_ptw : ℚ) / ((r.itlb_acc + r.dtlb_acc : Nat) : ℚ)) ∧
    (r.itlb_acc + r.dtlb_acc = 0 → (emit r).ptw_rate = 0) ∧
    0 ≤ (emit r).ptw_rate := by
  have hdef : (emit r).ptw_rate = div (stlb_ptw r) (r.itlb_acc + r.dtlb_acc) := by
    show div (stlb_ptw r) (tlb_acc_total r) = _
    rw [tlb_acc_total_of_lt hsum]
  have hptw : (emit r).raw_stlb_ptw = stlb_ptw r := rfl
  rw [hdef, hptw]
  refine ⟨fun h => rate_of_pos (Nat.pos_of_ne_zero h), ?_, rate_nonneg _ _⟩
  intro h
  rw [h]
  exact rate_zero_den _

/-- Witness of C9: a row with two `STLB` misses and one `ITLB` access has
`ptw_rate = 2 / 1`. -/
theorem ptw_rate_is_guarded_quotient_witness :
    (1 + 0 < 2 ^ 64) ∧
    (emit ⟨0, 5, true, 1, 1, 0, 0, 2, 0⟩).ptw_rate
      = ((emit ⟨0, 5, true, 1, 1, 0, 0, 2, 0⟩).raw_stlb_ptw : ℚ) / ((1 + 0 : Nat) : ℚ) ∧
    0 ≤ (emit ⟨0, 5, true, 1, 1, 0, 0, 2, 0⟩).ptw_rate :=
  have h := ptw_rate_is_guarded_quotient ⟨0, 5, true, 1, 1, 0, 0, 2, 0⟩ (by decide)
  ⟨by decide, h.1 (by decide), h.2.2⟩

/-- C10: `clear` leaves the empty table whatever the table held: the snapshot
after `clear` has no entry and the export after `clear` writes no row. -/
theorem clear_empties_table (sort : sorter) (hsort : StdSortContract sort) (g : Table) :
    clear g = g_stat ∧ snapshot (clear g) = [] ∧ print sort (clear g) = [] := by
  refine ⟨rfl, rfl, ?_⟩
  have h := sorted_rows_perm hsort (clear g)
  have h2 : sorted_rows sort (clear g) = [] := List.Perm.eq_nil h
  unfold print
  rw [h2]
  rfl

/-- Witness of C10 on `scenario_B` with `insertion_sort`. -/
theorem clear_empties_table_witness :
    snapshot scenario_B ≠ [] ∧ clear scenario_B = g_stat ∧ snapshot (clear scenario_B) = [] ∧
    print insertion_sort (clear scenario_B) = [] :=
  ⟨by decide, clear_empties_table insertion_sort insertion_sort_contract scenario_B⟩

end champsim.json_printer

/-! ## The key order and the iteration order of the snapshot -/

namespace page_stats

theorem key.lt_iff_lex_lt (a b : key) : key.lt a b = true ↔ key.lex_lt a b := by
  obtain ⟨ac, av, ai⟩ := a
  obtain ⟨bc, bv, bi⟩ := b
  simp only [key.lt, key.lex_lt]
  cases ai <;> cases bi <;> simp only [Bool.toNat] <;> split_ifs <;> simp_all

theorem ascending_command_apply (c : command) {g : Table} (hasc : Ascending g) :
    Ascending (c.apply g) := by
  cases c with
  | record a => exact ascending_apply a hasc
  | clear => exact List.Pairwise.nil

theorem ascending_run (cmds : List command) {g : Table} (hasc : Ascending g) :
    Ascending (run cmds g) := by
  induction cmds generalizing g with
  | nil => exact hasc
  | cons c cmds ih => exact ih (ascending_command_apply c hasc)

/-- C11: in every table reached from the empty table by calls of `tlb_access`
and `clear`, the snapshot lists its entries in strictly ascending key order:
for positions `i < j` the key at `i` is before the key at `j` in the
lexicographic order by `core`, then `vpn`, then `is_instr` with `false` before
`true`; so no key occurs twice in the snapshot. -/
theorem snapshot_strictly_ascending (cmds : List command) :
    (∀ (i j : Nat) (hij : i < j) (hj : j < (snapshot (run cmds g_stat)).length),
      key.lex_lt ((snapshot (run cmds g_stat)).get ⟨i, hij.trans hj⟩).1
        ((snapshot (run cmds g_stat)).get ⟨j, hj⟩).1) ∧
    ((snapshot (run cmds g_stat)).map Prod.fst).Nodup := by
  have hasc : Ascending (run cmds g_stat) := ascending_run cmds ascending_g_stat
  refine ⟨?_, ?_⟩
  · intro i j hij hj
    have h := List.pairwise_iff_get.1 hasc ⟨i, hij.trans hj⟩ ⟨j, hj⟩ hij
    exact (key.lt_iff_lex_lt _ _).1 h
  · unfold List.Nodup
    rw [List.pairwise_map]
    exact List.Pairwise.imp (fun h => key.ne_of_lt h) hasc

/-- C14: `key::operator<` is a strict total order on keys: it is irreflexive and
transitive, for any two keys exactly one of `a < b`, `b < a`, or equality of all
three fields holds, and it is the lexicographic order on
`(core, vpn, is_instr)` with `false` before `true`. -/
theorem key_lt_strict_total_order :
    (∀ a : key, key.lt a a = false) ∧
    (∀ a b c : key, key.lt a b = true → key.lt b c = true → key.lt a c = true) ∧
    (∀ a b : key,
      (key.lt a b = true ∨ key.lt b a = true ∨
        (a.core = b.core ∧ a.vpn = b.vpn ∧ a.is_instr = b.is_instr)) ∧
      ¬ (key.lt a b = true ∧ key.lt b a = true) ∧
      ¬ (key.lt a b = true ∧ (a.core = b.core ∧ a.vpn = b.vpn ∧ a.is_instr = b.is_instr)) ∧
      ¬ (key.lt b a = true ∧ (a.core = b.core ∧ a.vpn = b.vpn ∧ a.is_instr = b.is_instr))) ∧
    (∀ a b : key, key.lt a b = true ↔ key.lex_lt a b) := by
  refine ⟨key.lt_irrefl, fun a b c => key.lt_trans, ?_, key.lt_iff_lex_lt⟩
  intro a b
  have hfields : (a.core = b.core ∧ a.vpn = b.vpn ∧ a.is_instr = b.is_instr) → a = b := by
    obtain ⟨ac, av, ai⟩ := a
    obtain ⟨bc, bv, bi⟩ := b
    rintro ⟨h1, h2, h3⟩
    simp only at h1 h2 h3
    rw [h1, h2, h3]
  refine ⟨?_, ?_, ?_, ?_⟩
  · cases hab : key.lt a b
    · cases hba : key.lt b a
      · right; right
        have := key.eq_of_not_lt hab hba
        subst this
        exact ⟨rfl, rfl, rfl⟩
      · right; left; rfl
    · left; rfl
  · rintro ⟨h1, h2⟩
    rw [key.lt_asymm h1] at h2
    exact Bool.false_ne_true h2
  · rintro ⟨h1, h2⟩
    exact key.ne_of_lt h1 (hfields h2)
  · rintro ⟨h1, h2⟩
    exact key.ne_of_lt h1 (hfields h2).symm

end page_stats

/-! ## The frame of a call of `tlb_access` -/

namespace page_stats

theorem bump_of_not_level {which : String} (h : ¬ Level which) (is_hit : Bool) (c : counters) :
    bump which is_hit c = c := by
  unfold Level at h
  unfold bump
  rw [if_neg (fun h1 => h (Or.inl h1)), if_neg (fun h1 => h (Or.inr (Or.inl h1))),
    if_neg (fun h1 => h (Or.inr (Or.inr h1)))]

/-- No entry of the map is removed by a call of `tlb_access`. -/
theorem key_kept_by_apply (a : access) {g : Table} (hasc : Ascending g) {kv : key × counters}
    (hkv : kv ∈ g) : ∃ c, (kv.1, c) ∈ a.apply g := by
  have hf : find kv.1 g = some kv.2 := find_eq_some_of_mem hasc hkv
  by_cases hk : kv.1 = a.key
  · refine ⟨bump a.which a.is_hit (counters_at kv.1 g), mem_of_find_eq_some ?_⟩
    rw [find_apply a kv.1 hasc, if_pos hk]
  · refine ⟨kv.2, mem_of_find_eq_some ?_⟩
    rw [find_apply a kv.1 hasc, if_neg hk]
    exact hf

theorem key_present_after_apply (a : access) {g : Table} (hasc : Ascending g) :
    ∃ c, (a.key, c) ∈ a.apply g := by
  refine ⟨bump a.which a.is_hit (counters_at a.key g), mem_of_find_eq_some ?_⟩
  rw [find_apply a a.key hasc, if_pos rfl]

/-- C13: a call of `tlb_access` with a recognised level `L` and key `K` changes
only the counters of `K` for `L`: every other key keeps its entry, with all six
counters unchanged, and no entry is removed; the counters of `K` for the two
other levels are unchanged; the access counter of `K` for `L` grows by exactly
one (from zero if `K` was absent), and the hit counter of `K` for `L` grows by
exactly one if `is_hit` is true and is unchanged otherwise, for counters below
`2 ^ 64 - 1`. -/
theorem recognised_call_frame (a : access) (hL : Level a.which) (g : Table) (hasc : Ascending g)
    (hacc : (counters_at a.key g).acc a.which < 2 ^ 64 - 1)
    (hhit : (counters_at a.key g).hit a.which < 2 ^ 64 - 1) :
    (∀ K, K ≠ a.key → find K (snapshot (a.apply g)) = find K (snapshot g)) ∧
    (∀ kv ∈ snapshot g, ∃ c, (kv.1, c) ∈ snapshot (a.apply g)) ∧
    (∀ L, Level L → L ≠ a.which →
      (counters_at a.key (snapshot (a.apply g))).acc L = (counters_at a.key (snapshot g)).acc L ∧
      (counters_at a.key (snapshot (a.apply g))).hit L = (counters_at a.key (snapshot g)).hit L) ∧
    (counters_at a.key (snapshot (a.apply g))).acc a.which
      = (counters_at a.key (snapshot g)).acc a.which + 1 ∧
    (counters_at a.key (snapshot (a.apply g))).hit a.which
      = (counters_at a.key (snapshot g)).hit a.which + (if a.is_hit = true then 1 else 0) := by
  unfold snapshot
  have hat : counters_at a.key (a.apply g)
      = bump a.which a.is_hit (counters_at a.key g) := by
    rw [counters_at_apply a a.key hasc, if_pos rfl]
  refine ⟨?_, fun kv hkv => key_kept_by_apply a hasc hkv, ?_, ?_, ?_⟩
  · intro K hK
    rw [find_apply a K hasc, if_neg hK]
  · intro L hL2 hne
    rw [hat, bump_acc hL2, bump_hit hL2, if_neg (fun h => hne h.symm),
      if_neg (fun h => hne h.1.symm)]
    exact ⟨rfl, rfl⟩
  · rw [hat, bump_acc hL, if_pos rfl]
    exact incr64_of_lt (by omega)
  · rw [hat, bump_hit hL]
    by_cases hh : a.is_hit = true
    · rw [if_pos ⟨rfl, hh⟩, if_pos hh]
      exact incr64_of_lt (by omega)
    · rw [if_neg (fun h => hh h.2), if_neg hh]
      rfl

/-- Witness of C13: an `ITLB` hit of page 2 on core 0 recorded in `scenario_B`. -/
theorem recognised_call_frame_witness :
    Level "ITLB" ∧ Ascending champsim.json_printer.scenario_B ∧
    (counters_at ⟨0, 2, false⟩ (snapshot champsim.json_printer.scenario_B)).acc "ITLB" = 10 ∧
    (counters_at ⟨0, 2, false⟩
        (snapshot ((⟨"ITLB", 0, 2, true, false⟩ : access).apply champsim.json_printer.scenario_B))).acc "ITLB"
      = (counters_at ⟨0, 2, false⟩ (snapshot champsim.json_printer.scenario_B)).acc "ITLB" + 1 ∧
    (counters_at ⟨0, 2, false⟩
        (snapshot ((⟨"ITLB", 0, 2, true, false⟩ : access).apply champsim.json_printer.scenario_B))).hit "ITLB"
      = (counters_at ⟨0, 2, false⟩ (snapshot champsim.json_printer.scenario_B)).hit "ITLB" + 1 :=
  have h := recognised_call_frame ⟨"ITLB", 0, 2, true, false⟩ (Or.inl rfl) champsim.json_printer.scenario_B
    (by unfold Ascending; decide) (by decide) (by decide)
  ⟨Or.inl rfl, by unfold Ascending; decide, by decide, h.2.2.2.1, h.2.2.2.2⟩

/-- C17: a call of `tlb_access` whose level string is none of `ITLB`, `DTLB`,
`STLB` changes no counter value: for every key the six counters after the call,
read as zero when the key is absent, are the six counters before the call, read
the same way; and every key present before the call is still present. -/
theorem unknown_level_changes_no_counter (a : access) (hL : ¬ Level a.which) (g : Table)
    (hasc : Ascending g) :
    (∀ K, counters_at K (snapshot (a.apply g)) = counters_at K (snapshot g)) ∧
    (∀ kv ∈ snapshot g, ∃ c, (kv.1, c) ∈ snapshot (a.apply g)) := by
  unfold snapshot
  refine ⟨?_, fun kv hkv => key_kept_by_apply a hasc hkv⟩
  intro K
  rw [counters_at_apply a K hasc, bump_of_not_level hL]
  split_ifs <;> rfl

/-- Witness of C17: a call with the level string `UNKNOWN` on `scenario_B`. -/
theorem unknown_level_changes_no_counter_witness :
    ¬ Level "UNKNOWN" ∧ Ascending champsim.json_printer.scenario_B ∧
    (∀ K, counters_at K (snapshot ((⟨"UNKNOWN", 0, 5, true, true⟩ : access).apply champsim.json_printer.scenario_B))
      = counters_at K (snapshot champsim.json_printer.scenario_B)) ∧
    (∀ kv ∈ snapshot champsim.json_printer.scenario_B,
      ∃ c, (kv.1, c) ∈ snapshot ((⟨"UNKNOWN", 0, 5, true, true⟩ : access).apply champsim.json_printer.scenario_B)) :=
  ⟨by unfold Level; decide, by unfold Ascending; decide,
    unknown_level_changes_no_counter ⟨"UNKNOWN", 0, 5, true, true⟩ (by unfold Level; decide)
      champsim.json_printer.scenario_B (by unfold Ascending; decide)⟩

end page_stats

/-! ## The comparator is a strict weak ordering, also when the sum wraps -/

namespace champsim.json_printer

open page_stats

/-- C16: the comparator handed to `std::sort` is a strict weak ordering on rows
with arbitrary counters, also when `itlb_acc + dtlb_acc` wraps modulo `2 ^ 64`:
it is irreflexive, asymmetric and transitive, incomparability (neither row
before the other) is transitive, and two rows are incomparable exactly when
they agree on `(itlb_acc + dtlb_acc) mod 2 ^ 64`, `stlb_acc`, `core` and `vpn`. -/
theorem hotter_is_strict_weak_ordering :
    (∀ a : Row, hotter a a = false) ∧
    (∀ a b : Row, hotter a b = true → hotter b a = false) ∧
    (∀ a b c : Row, hotter a b = true → hotter b c = true → hotter a c = true) ∧
    (∀ a b c : Row, (hotter a b = false ∧ hotter b a = false) →
      (hotter b c = false ∧ hotter c b = false) → (hotter a c = false ∧ hotter c a = false)) ∧
    (∀ a b : Row, (hotter a b = false ∧ hotter b a = false) ↔
      ((a.itlb_acc + a.dtlb_acc) % 2 ^ 64 = (b.itlb_acc + b.dtlb_acc) % 2 ^ 64 ∧
        a.stlb_acc = b.stlb_acc ∧ a.core = b.core ∧ a.vpn = b.vpn)) := by
  have hswo := hotter_strict_weak
  refine ⟨hotter_irrefl, fun a b h => hswo.asymm h, fun a b c => hotter_trans, ?_, ?_⟩
  · intro a b c hab hbc
    exact hswo.2.2 a b c hab.1 hab.2 hbc.1 hbc.2
  · intro a b
    exact hotter_incomparable_iff a b

/-! ## Scenarios from recorded calls to exported rows -/

/-- The export of a table with one entry writes the row of that entry. -/
theorem print_single_entry {sort : sorter} (hsort : StdSortContract sort) {g : Table}
    {kv : key × counters} (hg : g = [kv]) : print sort g = [emit (row_of kv)] := by
  have h := sorted_rows_perm hsort g
  rw [hg] at h
  have h2 : sorted_rows sort [kv] = [row_of kv] := List.perm_singleton.1 h
  unfold print
  rw [hg, h2]
  rfl

/-- C12: scenario A end to end: after three `ITLB` hits and one `ITLB` miss of
page 100 on core 0, instruction side, recorded in the empty table, the export
writes exactly one row, with `core = 0`, `vpn = 100`, `is_instr = true`,
`itlb_acc = 4`, `itlb_hit = 3` and `itlb_hit_rate = 3 / 4`; its `DTLB` and `STLB`
counters, `stlb_ptw`, and its other three rates are zero. -/
theorem scenario_A_end_to_end (sort : sorter) (hsort : StdSortContract sort) :
    print sort (record_all scenario_A g_stat)
      = [{ core := 0, vpn := 100, is_instr := true,
           itlb_hit_rate := 3 / 4, dtlb_hit_rate := 0, stlb_hit_rate := 0, ptw_rate := 0,
           raw_itlb_acc := 4, raw_itlb_hit := 3, raw_dtlb_acc := 0, raw_dtlb_hit := 0,
           raw_stlb_acc := 0, raw_stlb_hit := 0, raw_stlb_ptw := 0 }] := by
  have htable : record_all scenario_A g_stat = [(⟨0, 100, true⟩, ⟨4, 3, 0, 0, 0, 0⟩)] := by
    decide
  rw [print_single_entry hsort htable]
  simp only [emit, row_of, div, ptw_rate, stlb_ptw, tlb_acc_total]
  norm_num

/-- Witness of C12 with `insertion_sort`. -/
theorem scenario_A_end_to_end_witness :
    print insertion_sort (record_all scenario_A g_stat)
      = [{ core := 0, vpn := 100, is_instr := true,
           itlb_hit_rate := 3 / 4, dtlb_hit_rate := 0, stlb_hit_rate := 0, ptw_rate := 0,
           raw_itlb_acc := 4, raw_itlb_hit := 3, raw_dtlb_acc := 0, raw_dtlb_hit := 0,
           raw_stlb_acc := 0, raw_stlb_hit := 0, raw_stlb_ptw := 0 }] :=
  scenario_A_end_to_end insertion_sort insertion_sort_contract

/-- C18: `ptw_rate` is not bounded by one: after two `STLB` misses and one
`ITLB` access of the same page, recorded in the empty table, the export writes
one row, whose `stlb_ptw` is 2 and whose `itlb_acc + dtlb_acc` is 1, so its
`ptw_rate` is 2, above one, while its three hit rates are at most one. -/
theorem ptw_rate_exceeds_one (sort : sorter) (hsort : StdSortContract sort) :
    ∃ p, print sort (record_all walk_calls g_stat) = [p] ∧
      p.raw_stlb_ptw = 2 ∧ p.raw_itlb_acc + p.raw_dtlb_acc = 1 ∧
      p.ptw_rate = 2 ∧ 1 < p.ptw_rate ∧
      p.itlb_hit_rate ≤ 1 ∧ p.dtlb_hit_rate ≤ 1 ∧ p.stlb_hit_rate ≤ 1 := by
  have htable : record_all walk_calls g_stat = [(⟨0, 5, true⟩, ⟨1, 0, 0, 0, 2, 0⟩)] := by
    decide
  refine ⟨emit (row_of (⟨0, 5, true⟩, ⟨1, 0, 0, 0, 2, 0⟩)), print_single_entry hsort htable, ?_⟩
  simp only [emit, row_of, div, ptw_rate, stlb_ptw, tlb_acc_total]
  norm_num

/-- Witness of C18 with `insertion_sort`. -/
theorem ptw_rate_exceeds_one_witness :
    ∃ p, print insertion_sort (record_all walk_calls g_stat) = [p] ∧
      p.raw_stlb_ptw = 2 ∧ p.raw_itlb_acc + p.raw_dtlb_acc = 1 ∧
      p.ptw_rate = 2 ∧ 1 < p.ptw_rate ∧
      p.itlb_hit_rate ≤ 1 ∧ p.dtlb_hit_rate ≤ 1 ∧ p.stlb_hit_rate ≤ 1 :=
  ptw_rate_exceeds_one insertion_sort insertion_sort_contract

end champsim.json_printer

/-! ## Page-table walks of a recorded table -/

namespace page_stats

theorem record_all_append (l1 l2 : List access) (g : Table) :
    record_all (l1 ++ l2) g = record_all l2 (record_all l1 g) := by
  unfold record_all
  rw [List.foldl_append]

/-- A table reached by calls of `tlb_access` and `clear` is the table recorded
by the calls made since the last `clear`. -/
theorem run_eq_record_all (cmds : List command) (pending : List access) :
    run cmds (record_all pending g_stat)
      = record_all (calls_since_clear pending cmds) g_stat := by
  induction cmds generalizing pending with
  | nil => rfl
  | cons c cmds ih =>
    cases c with
    | record a =>
      have h1 : run (command.record a :: cmds) (record_all pending g_stat)
          = run cmds (record_all (pending ++ [a]) g_stat) := by
        rw [run_cons, record_all_append]
        rfl
      have h2 : calls_since_clear pending (command.record a :: cmds)
          = calls_since_clear (pending ++ [a]) cmds := rfl
      rw [h1, h2]
      exact ih (pending ++ [a])
    | clear =>
      have h1 : run (command.clear :: cmds) (record_all pending g_stat)
          = run cmds (record_all [] g_stat) := rfl
      have h2 : calls_since_clear pending (command.clear :: cmds)
          = calls_since_clear [] cmds := rfl
      rw [h1, h2]
      exact ih []

theorem length_calls_since_clear (cmds : List command) (pending : List access) :
    (calls_since_clear pending cmds).length ≤ pending.length + record_count cmds := by
  induction cmds generalizing pending with
  | nil => exact Nat.le_add_right _ _
  | cons c cmds ih =>
    cases c with
    | record a =>
      have h2 : calls_since_clear pending (command.record a :: cmds)
          = calls_since_clear (pending ++ [a]) cmds := rfl
      rw [h2, record_count_cons_record]
      have := ih (pending ++ [a])
      rw [List.length_append, List.length_singleton] at this
      omega
    | clear =>
      have h2 : calls_since_clear pending (command.clear :: cmds)
          = calls_since_clear [] cmds := rfl
      rw [h2, record_count_cons_clear]
      have := ih []
      rw [List.length_nil] at this
      omega

theorem access_count_eq_hit_add_miss (L : String) (K : key) (calls : List access) :
    access_count L K calls = hit_count L K calls + miss_count L K calls := by
  unfold access_count hit_count miss_count
  induction calls with
  | nil => rfl
  | cons a calls ih =>
    rw [List.countP_cons, List.countP_cons, List.countP_cons, ih]
    cases hh : a.is_hit <;> by_cases hw : a.which = L <;> by_cases hk : a.key = K <;>
      simp [hh, hw, hk] <;> omega

/-- The `STLB` counters of a key in the table recorded by fewer than `2 ^ 64`
calls on the empty table. -/
theorem stlb_counters_recorded (calls : List access) (hlen : calls.length < 2 ^ 64) (K : key) :
    (counters_at K (record_all calls g_stat)).stlb_acc = access_count "STLB" K calls ∧
    (counters_at K (record_all calls g_stat)).stlb_hit = hit_count "STLB" K calls := by
  have hL : Level "STLB" := Or.inr (Or.inr rfl)
  have hacc := access_count_le_length "STLB" K calls
  have hhit := hit_count_le_access_count "STLB" K calls
  have h0 : counters_at K g_stat = counters.zero := rfl
  have h1 := acc_record_all hL K calls ascending_g_stat
    (by rw [h0]; show 0 + _ < _; omega)
  have h2 := hit_record_all hL K calls ascending_g_stat
    (by rw [h0]; show 0 + _ < _; omega)
  rw [h0] at h1 h2
  constructor
  · have e : (counters_at K (record_all calls g_stat)).acc "STLB"
        = (counters_at K (record_all calls g_stat)).stlb_acc := rfl
    rw [← e, h1]
    show 0 + _ = _
    omega
  · have e : (counters_at K (record_all calls g_stat)).hit "STLB"
        = (counters_at K (record_all calls g_stat)).stlb_hit := rfl
    rw [← e, h2]
    show 0 + _ = _
    omega

theorem counters_at_of_mem {g : Table} (hasc : Ascending g) {kv : key × counters}
    (hkv : kv ∈ g) : counters_at kv.1 g = kv.2 := by
  unfold counters_at
  rw [find_eq_some_of_mem hasc hkv]
  rfl

end page_stats

namespace champsim.json_printer

open page_stats

/-- C15: in every table reached from the empty table by calls of `tlb_access`
and `clear`, with fewer than `2 ^ 64` calls of `tlb_access`, every entry has
`itlb_hit ≤ itlb_acc`, `dtlb_hit ≤ dtlb_acc` and `stlb_hit ≤ stlb_acc`; so in
every exported row the clamp of `stlb_ptw` does not fire, `stlb_ptw` is exactly
`stlb_acc - stlb_hit`, and it is the number of `STLB` accesses with
`is_hit = false` recorded for the key of the row since the last `clear`. -/
theorem recorded_hits_never_exceed_accesses (sort : sorter) (hsort : StdSortContract sort)
    (cmds : List command) (hcount : record_count cmds < 2 ^ 64) :
    (∀ kv ∈ snapshot (run cmds g_stat),
      kv.2.itlb_hit ≤ kv.2.itlb_acc ∧ kv.2.dtlb_hit ≤ kv.2.dtlb_acc ∧
        kv.2.stlb_hit ≤ kv.2.stlb_acc) ∧
    (∀ p ∈ print sort (run cmds g_stat),
      p.raw_stlb_hit ≤ p.raw_stlb_acc ∧
      (p.raw_stlb_ptw : ℤ) = (p.raw_stlb_acc : ℤ) - (p.raw_stlb_hit : ℤ) ∧
      p.raw_stlb_ptw = miss_count "STLB" p.key (calls_since_clear [] cmds)) := by
  refine ⟨fun kv hkv => hits_le_accesses hcount hkv, ?_⟩
  intro p hp
  obtain ⟨kv, hkv, rfl⟩ := mem_print hsort hp
  have hle := (hits_le_accesses hcount hkv).2.2
  have hrun : run cmds g_stat = record_all (calls_since_clear [] cmds) g_stat :=
    run_eq_record_all cmds []
  have hlen : (calls_since_clear [] cmds).length < 2 ^ 64 := by
    have := length_calls_since_clear cmds []
    rw [List.length_nil] at this
    omega
  have hasc : Ascending (run cmds g_stat) := ascending_run cmds ascending_g_stat
  have hat : counters_at kv.1 (run cmds g_stat) = kv.2 := counters_at_of_mem hasc hkv
  have hcounts := stlb_counters_recorded (calls_since_clear [] cmds) hlen kv.1
  rw [← hrun, hat] at hcounts
  have hsplit := access_count_eq_hit_add_miss "STLB" kv.1 (calls_since_clear [] cmds)
  have hptw : (emit (row_of kv)).raw_stlb_ptw
      = if kv.2.stlb_acc ≥ kv.2.stlb_hit then kv.2.stlb_acc - kv.2.stlb_hit else 0 := rfl
  have hacc : (emit (row_of kv)).raw_stlb_acc = kv.2.stlb_acc := rfl
  have hhit : (emit (row_of kv)).raw_stlb_hit = kv.2.stlb_hit := rfl
  have hkey : (emit (row_of kv)).key = kv.1 := rfl
  rw [hptw, hacc, hhit, hkey, if_pos hle]
  refine ⟨hle, by omega, by omega⟩

/-- Witness of C15 on `sample_commands` with `insertion_sort`. -/
theorem recorded_hits_never_exceed_accesses_witness :
    record_count sample_commands < 2 ^ 64 ∧
    calls_since_clear [] sample_commands = sample_calls ∧
    miss_count "STLB" ⟨0, 5, true⟩ sample_calls = 1 ∧
    (∀ kv ∈ snapshot (run sample_commands g_stat),
      kv.2.itlb_hit ≤ kv.2.itlb_acc ∧ kv.2.dtlb_hit ≤ kv.2.dtlb_acc ∧
        kv.2.stlb_hit ≤ kv.2.stlb_acc) ∧
    (∀ p ∈ print insertion_sort (run sample_commands g_stat),
      p.raw_stlb_hit ≤ p.raw_stlb_acc ∧
      (p.raw_stlb_ptw : ℤ) = (p.raw_stlb_acc : ℤ) - (p.raw_stlb_hit : ℤ) ∧
      p.raw_stlb_ptw = miss_count "STLB" p.key (calls_since_clear [] sample_commands)) :=
  ⟨by decide, by decide, by decide,
    recorded_hits_never_exceed_accesses insertion_sort insertion_sort_contract sample_commands
      (by decide)⟩

end champsim.json_printer
